import Mathlib

/-!
Verification development for the torchTT tensor-train library
(`torchtt/torchtt.py`).  The TT data model and its operators are embedded
shallowly: a TT core becomes a record of its three (or four) dimensions
together with a total entry function, torch tensors of rational entries.
Errors raised by the Python code are modelled with an `Except` monad whose
error type collects both the library's own exception taxonomy
(`RankMismatch`, `InvalidArguments`, `ShapeMismatch`, `IncompatibleTypes`)
and the Python/backend errors the code can run into (`TypeError`,
`AttributeError`, `UnboundLocal` for UnboundLocalError, `IndexError`, and
`BackendError` for torch RuntimeError).
-/

namespace TorchTT

/-- Error outcomes of the embedded operations.  The first four mirror the
library's exception classes from `torchtt.errors`; the rest model Python or
torch runtime failures. -/
inductive PyError : Type
  | RankMismatch
  | InvalidArguments
  | ShapeMismatch
  | IncompatibleTypes
  | TypeError
  | AttributeError
  | UnboundLocal
  | IndexError
  | BackendError
  deriving DecidableEq

/-- A rank-3 TT core of shape `(r1, n, r2)`.  `entry a i b` is the value at
index `(a, i, b)`; the function is total, values outside the dimensions are
irrelevant to every theorem below. -/
structure Core3 : Type where
  r1 : ℕ
  n : ℕ
  r2 : ℕ
  entry : ℕ → ℕ → ℕ → ℚ

/-- A rank-4 TT-matrix core of shape `(r1, m, n, r2)` (row mode `m`, column
mode `n`). -/
structure Core4 : Type where
  r1 : ℕ
  m : ℕ
  n : ℕ
  r2 : ℕ
  entry : ℕ → ℕ → ℕ → ℕ → ℚ

instance : Inhabited Core3 := ⟨⟨0, 0, 0, fun _ _ _ => 0⟩⟩

instance : Inhabited Core4 := ⟨⟨0, 0, 0, 0, fun _ _ _ _ => 0⟩⟩

/-- A raw block handed to the `TT` constructor: only its shape matters for
the constructor's validation logic (`TT.__init__`, list-of-cores branch). -/
structure Block : Type where
  shape : List ℕ
  deriving DecidableEq

/-- The shape of a rank-3 core, as the constructor sees it. -/
def block3 (c : Core3) : Block := ⟨[c.r1, c.n, c.r2]⟩

/-- The shape of a rank-4 core, as the constructor sees it. -/
def block4 (c : Core4) : Block := ⟨[c.r1, c.m, c.n, c.r2]⟩

/-- The validation loop of `TT.__init__` (list branch).  Arguments: the
remaining blocks, the accumulated `N`, `M`, `R` lists and the running rank
`r` (the Python code's `R[-1]`).  For each block the code first evaluates
`s[0]` (IndexError on a 0-dimensional block), then compares it with the
running rank (`RankMismatch`), then classifies the block as 3d or 4d,
anything else being a fatal `InvalidArguments`. -/
def initScan : List Block → List ℕ → List ℕ → List ℕ → ℕ →
    Except PyError (List ℕ × List ℕ × List ℕ)
  | [], N, M, R, _ => .ok (N, M, R)
  | b :: bs, N, M, R, r =>
    match b.shape with
    | [] => .error .IndexError
    | [s0, n, r2] =>
      if s0 ≠ r then .error .RankMismatch
      else initScan bs (N ++ [n]) M (R ++ [r2]) r2
    | [s0, m, n, r2] =>
      if s0 ≠ r then .error .RankMismatch
      else initScan bs (N ++ [n]) (M ++ [m]) (R ++ [r2]) r2
    | s0 :: _ =>
      if s0 ≠ r then .error .RankMismatch else .error .InvalidArguments

/-- Result data of a successful `TT.__init__` run from a list of cores. -/
structure InitData : Type where
  N : List ℕ
  M : List ℕ
  R : List ℕ
  is_ttm : Bool
  deriving DecidableEq

/-- `TT.__init__`, list-of-cores branch.  `R` starts as `[source[0].shape[0]]`
(IndexError if the list is empty or the first block is 0-dimensional), the
loop of `initScan` runs, and finally the code checks
`len(N) != d or len(R) != d+1 or R[0] != 1 or R[-1] != 1 or
(len(M)!=0 and len(M)!=len(N))`, raising `InvalidArguments`; on success the
object is a TT-matrix iff `len(M) == len(N)`. -/
def fromBlocks (bs : List Block) : Except PyError InitData :=
  match bs with
  | [] => .error .IndexError
  | b :: _ =>
    match b.shape with
    | [] => .error .IndexError
    | s0 :: _ =>
      match initScan bs [] [] [s0] s0 with
      | .error e => .error e
      | .ok (N, M, R) =>
        if N.length ≠ bs.length ∨ R.length ≠ bs.length + 1 ∨
            R.headD 0 ≠ 1 ∨ R.getLastD 0 ≠ 1 ∨ (M ≠ [] ∧ M.length ≠ N.length)
        then .error .InvalidArguments
        else .ok ⟨N, M, R, M.length == N.length⟩

/-- A TT tensor: cores plus the stored attributes `N` and `R`. -/
structure TTtens : Type where
  cores : List Core3
  N : List ℕ
  R : List ℕ

/-- A TT matrix: cores plus the stored attributes `M`, `N` and `R`. -/
structure TTmat : Type where
  cores : List Core4
  M : List ℕ
  N : List ℕ
  R : List ℕ

instance : Inhabited TTtens := ⟨⟨[], [], []⟩⟩

instance : Inhabited TTmat := ⟨⟨[], [], [], []⟩⟩

/-- A TT object is either a TT tensor (`is_ttm == False`) or a TT matrix
(`is_ttm == True`). -/
inductive TTObj : Type
  | tens : TTtens → TTObj
  | mat : TTmat → TTObj

instance : Inhabited TTObj := ⟨.tens default⟩

/-- Constructing a TT tensor from a list of rank-3 cores: run `TT.__init__`
on their shapes, and on success store the cores together with the derived
`N` and `R`. -/
def fromCores3 (cs : List Core3) : Except PyError TTtens :=
  (fromBlocks (cs.map block3)).map fun d => ⟨cs, d.N, d.R⟩

/-- Constructing a TT matrix from a list of rank-4 cores. -/
def fromCores4 (cs : List Core4) : Except PyError TTmat :=
  (fromBlocks (cs.map block4)).map fun d => ⟨cs, d.M, d.N, d.R⟩

/-- `chainB cs r` holds when the leading dimension of every core matches the
running rank started at `r` (the adjacency condition the constructor's loop
checks). -/
def chainB : List Core3 → ℕ → Bool
  | [], _ => true
  | c :: cs, r => (c.r1 == r) && chainB cs c.r2

/-- Trailing rank of a rank-3 core list (`R[-1]` for a nonempty list). -/
def trail3 : List Core3 → ℕ
  | [] => 1
  | [c] => c.r2
  | _ :: cs => trail3 cs

/-- Adjacency chain for rank-4 cores. -/
def chainB4 : List Core4 → ℕ → Bool
  | [], _ => true
  | c :: cs, r => (c.r1 == r) && chainB4 cs c.r2

/-- Trailing rank of a rank-4 core list. -/
def trail4 : List Core4 → ℕ
  | [] => 1
  | [c] => c.r2
  | _ :: cs => trail4 cs

/-- A block is 3- or 4-dimensional. -/
def bdimOK (b : Block) : Prop := b.shape.length = 3 ∨ b.shape.length = 4

instance (b : Block) : Decidable (bdimOK b) := by
  unfold bdimOK; infer_instance

/-- Leading dimension of a block. -/
def blead (b : Block) : ℕ := b.shape.headD 0

/-- Trailing dimension of a block. -/
def btrail (b : Block) : ℕ := b.shape.getLastD 0

/-- Mode size contributed to `N` by one block (`s[1]` for a 3d block,
`s[2]` for a 4d block). -/
def bmode (b : Block) : ℕ :=
  if b.shape.length = 4 then b.shape.getD 2 0 else b.shape.getD 1 0

/-- Row-mode sizes collected into `M` (only 4d blocks contribute). -/
def brows : List Block → List ℕ
  | [] => []
  | b :: bs => (if b.shape.length = 4 then [b.shape.getD 1 0] else []) ++ brows bs

/-- Some adjacent pair of blocks has a leading dimension that differs from
the preceding trailing dimension. -/
def hasMis : List Block → Bool
  | b :: c :: rest => (blead c != btrail b) || hasMis (c :: rest)
  | _ => false

/-- All adjacent pairs link up, starting from running rank `r`. -/
def blinked : List Block → ℕ → Bool
  | [], _ => true
  | b :: bs, r => (blead b == r) && blinked bs (btrail b)

theorem shape_three {l : List ℕ} (h : l.length = 3) : ∃ x y z, l = [x, y, z] := by
  rcases l with _ | ⟨x, _ | ⟨y, _ | ⟨z, _ | ⟨w, t⟩⟩⟩⟩ <;> simp_all

theorem shape_four {l : List ℕ} (h : l.length = 4) :
    ∃ x y z w, l = [x, y, z, w] := by
  rcases l with _ | ⟨x, _ | ⟨y, _ | ⟨z, _ | ⟨w, _ | ⟨v, t⟩⟩⟩⟩⟩ <;> simp_all

theorem initScan_cons3 {x r : ℕ} (h : x = r) (y z : ℕ) (rest : List Block)
    (N M R : List ℕ) :
    initScan (⟨[x, y, z]⟩ :: rest) N M R r =
      initScan rest (N ++ [y]) M (R ++ [z]) z := by
  simp [initScan, h]

theorem initScan_cons4 {x r : ℕ} (h : x = r) (y z w : ℕ) (rest : List Block)
    (N M R : List ℕ) :
    initScan (⟨[x, y, z, w]⟩ :: rest) N M R r =
      initScan rest (N ++ [z]) (M ++ [y]) (R ++ [w]) w := by
  simp [initScan, h]

/-- A block of valid dimensionality whose leading dimension disagrees with
the running rank makes the scan stop with `RankMismatch` at once. -/
theorem initScan_head_mismatch (c : Block) (rest : List Block)
    (N M R : List ℕ) (r : ℕ) (hdim : bdimOK c) (hne : blead c ≠ r) :
    initScan (c :: rest) N M R r = .error .RankMismatch := by
  rcases c with ⟨shape⟩
  rcases hdim with h3 | h4
  · obtain ⟨x, y, z, rfl⟩ := shape_three h3
    simp only [blead, List.headD] at hne
    simp [initScan, hne]
  · obtain ⟨x, y, z, w, rfl⟩ := shape_four h4
    simp only [blead, List.headD] at hne
    simp [initScan, hne]

/-- If every block is 3- or 4-dimensional and some adjacent pair of blocks
has mismatched ranks, the scan raises `RankMismatch` (the loop reaches the
first mismatch before any other error can occur). -/
theorem initScan_mis :
    ∀ (bs : List Block) (N M R : List ℕ),
      (∀ b ∈ bs, bdimOK b) → hasMis bs = true →
      initScan bs N M R (blead (bs.headD ⟨[]⟩)) = .error .RankMismatch := by
  intro bs
  induction bs with
  | nil => intro N M R _ hmis; simp [hasMis] at hmis
  | cons b rest ih =>
    intro N M R hdim hmis
    rcases rest with _ | ⟨c, rest'⟩
    · simp [hasMis] at hmis
    have hdb : bdimOK b := hdim b (by simp)
    have hdc : bdimOK c := hdim c (by simp)
    simp only [hasMis, Bool.or_eq_true, bne_iff_ne, ne_eq] at hmis
    rcases b with ⟨shape⟩
    rcases hdb with h3 | h4
    · obtain ⟨x, y, z, rfl⟩ := shape_three h3
      have hbt : btrail ⟨[x, y, z]⟩ = z := by simp [btrail, List.getLastD]
      simp only [List.headD_cons, blead, List.headD]
      rw [initScan_cons3 rfl]
      by_cases hcb : blead c = z
      · have hmis' : hasMis (c :: rest') = true := by
          rcases hmis with h | h
          · exact absurd (by rw [hcb, hbt]) h
          · exact h
        have := ih (N ++ [y]) M (R ++ [z])
          (fun b hb => hdim b (List.mem_cons_of_mem _ hb)) hmis'
        rwa [List.headD_cons, hcb] at this
      · exact initScan_head_mismatch c rest' _ _ _ _ hdc hcb
    · obtain ⟨x, y, z, w, rfl⟩ := shape_four h4
      have hbt : btrail ⟨[x, y, z, w]⟩ = w := by simp [btrail, List.getLastD]
      simp only [List.headD_cons, blead, List.headD]
      rw [initScan_cons4 rfl]
      by_cases hcb : blead c = w
      · have hmis' : hasMis (c :: rest') = true := by
          rcases hmis with h | h
          · exact absurd (by rw [hcb, hbt]) h
          · exact h
        have := ih (N ++ [z]) (M ++ [y]) (R ++ [w])
          (fun b hb => hdim b (List.mem_cons_of_mem _ hb)) hmis'
        rwa [List.headD_cons, hcb] at this
      · exact initScan_head_mismatch c rest' _ _ _ _ hdc hcb

/-- A fully linked scan over well-dimensioned blocks succeeds and appends
the mode sizes, row sizes and trailing ranks to the accumulators. -/
theorem initScan_linked :
    ∀ (bs : List Block) (N M R : List ℕ) (r : ℕ),
      (∀ b ∈ bs, bdimOK b) → blinked bs r = true →
      initScan bs N M R r =
        .ok (N ++ bs.map bmode, M ++ brows bs, R ++ bs.map btrail) := by
  intro bs
  induction bs with
  | nil => intro N M R r _ _; simp [initScan, brows]
  | cons b rest ih =>
    intro N M R r hdim hlink
    have hdb : bdimOK b := hdim b (by simp)
    simp only [blinked, Bool.and_eq_true, beq_iff_eq] at hlink
    obtain ⟨hlead, hlink'⟩ := hlink
    rcases b with ⟨shape⟩
    rcases hdb with h3 | h4
    · obtain ⟨x, y, z, rfl⟩ := shape_three h3
      have hx : x = r := by simpa [blead] using hlead
      have hbt : btrail ⟨[x, y, z]⟩ = z := by simp [btrail, List.getLastD]
      rw [initScan_cons3 hx]
      rw [ih (N ++ [y]) M (R ++ [z]) z
        (fun b hb => hdim b (List.mem_cons_of_mem _ hb)) (hbt ▸ hlink')]
      simp [bmode, brows, hbt, List.append_assoc]
    · obtain ⟨x, y, z, w, rfl⟩ := shape_four h4
      have hx : x = r := by simpa [blead] using hlead
      have hbt : btrail ⟨[x, y, z, w]⟩ = w := by simp [btrail, List.getLastD]
      rw [initScan_cons4 hx]
      rw [ih (N ++ [z]) (M ++ [y]) (R ++ [w]) w
        (fun b hb => hdim b (List.mem_cons_of_mem _ hb)) (hbt ▸ hlink')]
      simp [bmode, brows, hbt, List.append_assoc]

/-- Inversion: a successful scan forces every block to be 3- or
4-dimensional, the whole chain to link up, and the outputs to be the
accumulators extended as in `initScan_linked`. -/
theorem initScan_ok_inv :
    ∀ (bs : List Block) (N M R : List ℕ) (r : ℕ) (out : List ℕ × List ℕ × List ℕ),
      initScan bs N M R r = .ok out →
      (∀ b ∈ bs, bdimOK b) ∧ blinked bs r = true ∧
        out.1 = N ++ bs.map bmode ∧ out.2.1 = M ++ brows bs ∧
        out.2.2 = R ++ bs.map btrail := by
  intro bs
  induction bs with
  | nil =>
    intro N M R r out h
    simp only [initScan, Except.ok.injEq] at h
    subst h
    simp [blinked, brows]
  | cons b rest ih =>
    intro N M R r out h
    rcases b with ⟨shape⟩
    rcases shape with _ | ⟨s0, _ | ⟨s1, _ | ⟨s2, _ | ⟨s3, _ | ⟨s4, tl⟩⟩⟩⟩⟩
    · simp [initScan] at h
    · simp only [initScan] at h
      split at h <;> simp_all
    · simp only [initScan] at h
      split at h <;> simp_all
    · by_cases hs : s0 = r
      · rw [initScan_cons3 hs] at h
        obtain ⟨hdim, hlink, h1, h2, h3⟩ := ih _ _ _ _ _ h
        refine ⟨?_, ?_, ?_, ?_, ?_⟩
        · intro b hb
          rcases List.mem_cons.mp hb with rfl | hb'
          · exact Or.inl rfl
          · exact hdim b hb'
        · simp [blinked, blead, btrail, List.getLastD, hs, hlink]
        · simp [h1, bmode, List.append_assoc]
        · simp [h2, brows]
        · simp [h3, btrail, List.getLastD, List.append_assoc]
      · simp only [initScan, if_pos hs] at h
        exact absurd h (by simp)
    · by_cases hs : s0 = r
      · rw [initScan_cons4 hs] at h
        obtain ⟨hdim, hlink, h1, h2, h3⟩ := ih _ _ _ _ _ h
        refine ⟨?_, ?_, ?_, ?_, ?_⟩
        · intro b hb
          rcases List.mem_cons.mp hb with rfl | hb'
          · exact Or.inr rfl
          · exact hdim b hb'
        · simp [blinked, blead, btrail, List.getLastD, hs, hlink]
        · simp [h1, bmode, List.append_assoc]
        · simp [h2, brows, bmode]
        · simp [h3, btrail, List.getLastD, List.append_assoc]
      · simp only [initScan, if_pos hs] at h
        exact absurd h (by simp)
    · simp only [initScan] at h
      split at h <;> simp_all

/-- The scan only ever fails with `IndexError`, `RankMismatch` or
`InvalidArguments`. -/
theorem initScan_error_sub :
    ∀ (bs : List Block) (N M R : List ℕ) (r : ℕ) (e : PyError),
      initScan bs N M R r = .error e →
      e = .IndexError ∨ e = .RankMismatch ∨ e = .InvalidArguments := by
  intro bs
  induction bs with
  | nil => intro N M R r e h; simp [initScan] at h
  | cons b rest ih =>
    intro N M R r e h
    rcases b with ⟨shape⟩
    rcases shape with _ | ⟨s0, _ | ⟨s1, _ | ⟨s2, _ | ⟨s3, _ | ⟨s4, tl⟩⟩⟩⟩⟩
    · simp only [initScan] at h; simp_all
    · simp only [initScan] at h; split at h <;> simp_all
    · simp only [initScan] at h; split at h <;> simp_all
    · by_cases hs : s0 = r
      · rw [initScan_cons3 hs] at h
        exact ih _ _ _ _ _ h
      · simp only [initScan, if_pos hs] at h; simp_all
    · by_cases hs : s0 = r
      · rw [initScan_cons4 hs] at h
        exact ih _ _ _ _ _ h
      · simp only [initScan, if_pos hs] at h; simp_all
    · simp only [initScan] at h; split at h <;> simp_all

/-- `TT.__init__` only ever fails with `IndexError`, `RankMismatch` or
`InvalidArguments`; in particular it never raises `ShapeMismatch`,
`IncompatibleTypes` or `TypeError`. -/
theorem fromBlocks_error_sub (bs : List Block) (e : PyError)
    (h : fromBlocks bs = .error e) :
    e = .IndexError ∨ e = .RankMismatch ∨ e = .InvalidArguments := by
  rcases bs with _ | ⟨b, rest⟩
  · simp only [fromBlocks] at h; simp_all
  · rcases b with ⟨shape⟩
    rcases shape with _ | ⟨s0, tl⟩
    · simp only [fromBlocks] at h; simp_all
    · simp only [fromBlocks] at h
      rcases hscan : initScan (⟨s0 :: tl⟩ :: rest) [] [] [s0] s0 with e' | ⟨N1, M1, R1⟩
      · rw [hscan] at h
        simp only [Except.error.injEq] at h
        subst h
        exact initScan_error_sub _ _ _ _ _ _ hscan
      · rw [hscan] at h
        split at h
        · rename_i heq
          exact absurd heq (by simp)
        · rename_i N2 M2 R2 heq
          simp only [Except.ok.injEq, Prod.mk.injEq] at heq
          obtain ⟨h1, h2, h3⟩ := heq
          subst h1; subst h2; subst h3
          split at h
          · simp only [Except.error.injEq] at h
            subst h
            right; right; rfl
          · exact absurd h (by simp)

/-- Head rank of a rank-3 core list. -/
def headR3 (cs : List Core3) : ℕ := (cs.headD default).r1

/-- Head rank of a rank-4 core list. -/
def headR4 (cs : List Core4) : ℕ := (cs.headD default).r1

theorem initScan_block3 (cs : List Core3) :
    ∀ (N M R : List ℕ) (r : ℕ),
      initScan (cs.map block3) N M R r =
        if chainB cs r then .ok (N ++ cs.map (·.n), M, R ++ cs.map (·.r2))
        else .error .RankMismatch := by
  induction cs with
  | nil => intro N M R r; simp [initScan, chainB]
  | cons c rest ih =>
    intro N M R r
    by_cases hc : c.r1 = r
    · rw [List.map_cons,
        show block3 c = (⟨[c.r1, c.n, c.r2]⟩ : Block) from rfl,
        initScan_cons3 hc, ih]
      by_cases h2 : chainB rest c.r2
      · simp [chainB, hc, h2, List.append_assoc]
      · simp [chainB, hc, h2]
    · rw [List.map_cons,
        initScan_head_mismatch (block3 c) _ _ _ _ r (Or.inl rfl)
          (by simpa [block3, blead] using hc)]
      simp [chainB, hc]

theorem initScan_block4 (cs : List Core4) :
    ∀ (N M R : List ℕ) (r : ℕ),
      initScan (cs.map block4) N M R r =
        if chainB4 cs r then
          .ok (N ++ cs.map (·.n), M ++ cs.map (·.m), R ++ cs.map (·.r2))
        else .error .RankMismatch := by
  induction cs with
  | nil => intro N M R r; simp [initScan, chainB4]
  | cons c rest ih =>
    intro N M R r
    by_cases hc : c.r1 = r
    · rw [List.map_cons,
        show block4 c = (⟨[c.r1, c.m, c.n, c.r2]⟩ : Block) from rfl,
        initScan_cons4 hc, ih]
      by_cases h2 : chainB4 rest c.r2
      · simp [chainB4, hc, h2, List.append_assoc]
      · simp [chainB4, hc, h2]
    · rw [List.map_cons,
        initScan_head_mismatch (block4 c) _ _ _ _ r (Or.inr rfl)
          (by simpa [block4, blead] using hc)]
      simp [chainB4, hc]

theorem map_r2_getLastD (cs : List Core3) (h : cs ≠ []) (r : ℕ) :
    (cs.map (·.r2)).getLastD r = trail3 cs := by
  induction cs generalizing r with
  | nil => simp at h
  | cons c rest ih =>
    rcases rest with _ | ⟨d, rest'⟩
    · simp [trail3, List.getLastD]
    · rw [List.map_cons, List.getLastD_cons]
      exact ih (by simp) c.r2

theorem map4_r2_getLastD (cs : List Core4) (h : cs ≠ []) (r : ℕ) :
    (cs.map (·.r2)).getLastD r = trail4 cs := by
  induction cs generalizing r with
  | nil => simp at h
  | cons c rest ih =>
    rcases rest with _ | ⟨d, rest'⟩
    · simp [trail4, List.getLastD]
    · rw [List.map_cons, List.getLastD_cons]
      exact ih (by simp) c.r2

/-- Computation of `TT.__init__` on a nonempty list of rank-3 cores:
adjacency failures surface as `RankMismatch`, boundary-rank failures as
`InvalidArguments`, and on success `N` and `R` are the mode sizes and ranks
read off the cores, with `is_ttm == False`. -/
theorem fromBlocks_block3_eq (c : Core3) (rest : List Core3) :
    fromBlocks ((c :: rest).map block3) =
      if chainB (c :: rest) c.r1 then
        if c.r1 = 1 ∧ trail3 (c :: rest) = 1 then
          .ok ⟨(c :: rest).map (·.n), [], c.r1 :: (c :: rest).map (·.r2), false⟩
        else .error .InvalidArguments
      else .error .RankMismatch := by
  have h0 : (c :: rest).map block3 = ⟨[c.r1, c.n, c.r2]⟩ :: rest.map block3 := rfl
  have hscan := initScan_block3 (c :: rest) [] [] [c.r1] c.r1
  rw [h0] at hscan
  by_cases hchain : chainB (c :: rest) c.r1
  · rw [if_pos hchain] at hscan
    rw [h0]
    simp only [fromBlocks, hscan, if_pos hchain]
    have hlast : (c.r2 :: List.map (fun x => x.r2) rest).getLast?.getD 0 =
        trail3 (c :: rest) := by
      rw [← List.getLastD_eq_getLast?]
      exact map_r2_getLastD (c :: rest) (by simp) 0
    by_cases hok : c.r1 = 1 ∧ trail3 (c :: rest) = 1
    · rw [if_pos hok]
      rw [if_neg (by simp [hlast, hok.1, hok.2])]
      simp
    · rw [if_neg hok]
      rw [if_pos ?_]
      rw [Decidable.not_and_iff_or_not] at hok
      rcases hok with hok | hok
      · refine Or.inr (Or.inr (Or.inl ?_))
        simpa using hok
      · refine Or.inr (Or.inr (Or.inr (Or.inl ?_)))
        rw [List.singleton_append, List.getLastD_cons,
          map_r2_getLastD (c :: rest) (by simp) c.r1]
        exact hok
  · rw [if_neg hchain] at hscan
    rw [h0]
    simp only [fromBlocks, hscan, if_neg hchain]

/-- Computation of `TT.__init__` on a nonempty list of rank-4 cores: like
the rank-3 case, with `M` collected from the row modes and `is_ttm == True`
on success. -/
theorem fromBlocks_block4_eq (c : Core4) (rest : List Core4) :
    fromBlocks ((c :: rest).map block4) =
      if chainB4 (c :: rest) c.r1 then
        if c.r1 = 1 ∧ trail4 (c :: rest) = 1 then
          .ok ⟨(c :: rest).map (·.n), (c :: rest).map (·.m),
            c.r1 :: (c :: rest).map (·.r2), true⟩
        else .error .InvalidArguments
      else .error .RankMismatch := by
  have h0 : (c :: rest).map block4 = ⟨[c.r1, c.m, c.n, c.r2]⟩ :: rest.map block4 := rfl
  have hscan := initScan_block4 (c :: rest) [] [] [c.r1] c.r1
  rw [h0] at hscan
  by_cases hchain : chainB4 (c :: rest) c.r1
  · rw [if_pos hchain] at hscan
    rw [h0]
    simp only [fromBlocks, hscan, if_pos hchain]
    have hlast : (c.r2 :: List.map (fun x => x.r2) rest).getLast?.getD 0 =
        trail4 (c :: rest) := by
      rw [← List.getLastD_eq_getLast?]
      exact map4_r2_getLastD (c :: rest) (by simp) 0
    by_cases hok : c.r1 = 1 ∧ trail4 (c :: rest) = 1
    · rw [if_pos hok]
      rw [if_neg (by simp [hlast, hok.1, hok.2])]
      simp
    · rw [if_neg hok]
      rw [if_pos ?_]
      rw [Decidable.not_and_iff_or_not] at hok
      rcases hok with hok | hok
      · refine Or.inr (Or.inr (Or.inl ?_))
        simpa using hok
      · refine Or.inr (Or.inr (Or.inr (Or.inl ?_)))
        rw [List.singleton_append, List.getLastD_cons,
          map4_r2_getLastD (c :: rest) (by simp) c.r1]
        exact hok
  · rw [if_neg hchain] at hscan
    rw [h0]
    simp only [fromBlocks, hscan, if_neg hchain]

/-- The structural invariants of a TT tensor as the specification states
them: `len(R) == len(N) + 1`, `R[0] == R[-1] == 1`, one core per mode, and
every core's leading and trailing dimensions agreeing with the stored rank
sequence. -/
def structOK3 (t : TTtens) : Prop :=
  t.R.length = t.N.length + 1 ∧ t.R.headD 0 = 1 ∧ t.R.getLastD 0 = 1 ∧
    t.cores.length = t.N.length ∧
    ∀ i < t.cores.length,
      (t.cores.getD i default).r1 = t.R.getD i 0 ∧
      (t.cores.getD i default).r2 = t.R.getD (i + 1) 0

instance (t : TTtens) : Decidable (structOK3 t) := by
  unfold structOK3; infer_instance

/-- The same structural invariants for a TT matrix. -/
def structOK4 (t : TTmat) : Prop :=
  t.R.length = t.N.length + 1 ∧ t.R.headD 0 = 1 ∧ t.R.getLastD 0 = 1 ∧
    t.cores.length = t.N.length ∧
    ∀ i < t.cores.length,
      (t.cores.getD i default).r1 = t.R.getD i 0 ∧
      (t.cores.getD i default).r2 = t.R.getD (i + 1) 0

instance (t : TTmat) : Decidable (structOK4 t) := by
  unfold structOK4; infer_instance

/-- Structural invariants of a TT object of either kind. -/
def structOK : TTObj → Prop
  | .tens t => structOK3 t
  | .mat t => structOK4 t

instance (t : TTObj) : Decidable (structOK t) := by
  cases t <;> (unfold structOK; infer_instance)

theorem chainB_adj (cs : List Core3) :
    ∀ r, chainB cs r = true →
      ∀ i < cs.length,
        (cs.getD i default).r1 = (r :: cs.map (·.r2)).getD i 0 ∧
        (cs.getD i default).r2 = (cs.map (·.r2)).getD i 0 := by
  induction cs with
  | nil => intro r _ i hi; simp at hi
  | cons c rest ih =>
    intro r h i hi
    simp only [chainB, Bool.and_eq_true, beq_iff_eq] at h
    obtain ⟨h1, h2⟩ := h
    cases i with
    | zero => simp [h1]
    | succ j =>
      have hj : j < rest.length := by simpa using hi
      have := ih c.r2 h2 j hj
      simpa using this

theorem chainB4_adj (cs : List Core4) :
    ∀ r, chainB4 cs r = true →
      ∀ i < cs.length,
        (cs.getD i default).r1 = (r :: cs.map (·.r2)).getD i 0 ∧
        (cs.getD i default).r2 = (cs.map (·.r2)).getD i 0 := by
  induction cs with
  | nil => intro r _ i hi; simp at hi
  | cons c rest ih =>
    intro r h i hi
    simp only [chainB4, Bool.and_eq_true, beq_iff_eq] at h
    obtain ⟨h1, h2⟩ := h
    cases i with
    | zero => simp [h1]
    | succ j =>
      have hj : j < rest.length := by simpa using hi
      have := ih c.r2 h2 j hj
      simpa using this

/-- A core list that chains from rank 1 to trailing rank 1 yields a TT
tensor satisfying the structural invariants when `N` and `R` are read off
the cores. -/
theorem structOK3_mk (cs : List Core3) (hchain : chainB cs 1 = true)
    (ht : trail3 cs = 1) :
    structOK3 ⟨cs, cs.map (·.n), 1 :: cs.map (·.r2)⟩ := by
  refine ⟨by simp, by simp, ?_, by simp, ?_⟩
  · rcases cs with _ | ⟨c, rest⟩
    · simp [List.getLastD]
    · rw [List.getLastD_cons, map_r2_getLastD _ (by simp) 1]
      exact ht
  · intro i hi
    have := chainB_adj cs 1 hchain i (by simpa using hi)
    exact ⟨this.1, by simpa using this.2⟩

theorem structOK4_mk (cs : List Core4) (hchain : chainB4 cs 1 = true)
    (ht : trail4 cs = 1) :
    structOK4 ⟨cs, cs.map (·.m), cs.map (·.n), 1 :: cs.map (·.r2)⟩ := by
  refine ⟨by simp, by simp, ?_, by simp, ?_⟩
  · rcases cs with _ | ⟨c, rest⟩
    · simp [List.getLastD]
    · rw [List.getLastD_cons, map4_r2_getLastD _ (by simp) 1]
      exact ht
  · intro i hi
    have := chainB4_adj cs 1 hchain i (by simpa using hi)
    exact ⟨this.1, by simpa using this.2⟩

/-- Inversion of a successful `TT` construction from rank-3 cores. -/
theorem fromCores3_ok_inv (cs : List Core3) (t : TTtens)
    (h : fromCores3 cs = .ok t) :
    cs ≠ [] ∧ chainB cs 1 = true ∧ headR3 cs = 1 ∧ trail3 cs = 1 ∧
      t = ⟨cs, cs.map (·.n), 1 :: cs.map (·.r2)⟩ := by
  rcases cs with _ | ⟨c, rest⟩
  · simp [fromCores3, fromBlocks, Except.map] at h
  · rw [fromCores3, fromBlocks_block3_eq] at h
    by_cases hchain : chainB (c :: rest) c.r1
    · rw [if_pos hchain] at h
      by_cases hok : c.r1 = 1 ∧ trail3 (c :: rest) = 1
      · rw [if_pos hok] at h
        simp only [Except.map, Except.ok.injEq] at h
        refine ⟨by simp, by rw [← hok.1]; exact hchain, hok.1, hok.2, ?_⟩
        rw [← h]
        simp [hok.1]
      · rw [if_neg hok] at h
        simp [Except.map] at h
    · rw [if_neg hchain] at h
      simp [Except.map] at h

/-- Inversion of a successful `TT` construction from rank-4 cores. -/
theorem fromCores4_ok_inv (cs : List Core4) (t : TTmat)
    (h : fromCores4 cs = .ok t) :
    cs ≠ [] ∧ chainB4 cs 1 = true ∧ headR4 cs = 1 ∧ trail4 cs = 1 ∧
      t = ⟨cs, cs.map (·.m), cs.map (·.n), 1 :: cs.map (·.r2)⟩ := by
  rcases cs with _ | ⟨c, rest⟩
  · simp [fromCores4, fromBlocks, Except.map] at h
  · rw [fromCores4, fromBlocks_block4_eq] at h
    by_cases hchain : chainB4 (c :: rest) c.r1
    · rw [if_pos hchain] at h
      by_cases hok : c.r1 = 1 ∧ trail4 (c :: rest) = 1
      · rw [if_pos hok] at h
        simp only [Except.map, Except.ok.injEq] at h
        refine ⟨by simp, by rw [← hok.1]; exact hchain, hok.1, hok.2, ?_⟩
        rw [← h]
        simp [hok.1]
      · rw [if_neg hok] at h
        simp [Except.map] at h
    · rw [if_neg hchain] at h
      simp [Except.map] at h

/-- A chained core list with boundary ranks 1 is accepted by the
constructor. -/
theorem fromCores3_ok_of (cs : List Core3) (hne : cs ≠ [])
    (hchain : chainB cs 1 = true) (hhead : headR3 cs = 1) (ht : trail3 cs = 1) :
    fromCores3 cs = .ok ⟨cs, cs.map (·.n), 1 :: cs.map (·.r2)⟩ := by
  rcases cs with _ | ⟨c, rest⟩
  · simp at hne
  · have hc1 : c.r1 = 1 := hhead
    rw [fromCores3, fromBlocks_block3_eq, if_pos (by rw [hc1]; exact hchain),
      if_pos ⟨hc1, ht⟩]
    simp [Except.map, hc1]

theorem fromCores4_ok_of (cs : List Core4) (hne : cs ≠ [])
    (hchain : chainB4 cs 1 = true) (hhead : headR4 cs = 1) (ht : trail4 cs = 1) :
    fromCores4 cs = .ok ⟨cs, cs.map (·.m), cs.map (·.n), 1 :: cs.map (·.r2)⟩ := by
  rcases cs with _ | ⟨c, rest⟩
  · simp at hne
  · have hc1 : c.r1 = 1 := hhead
    rw [fromCores4, fromBlocks_block4_eq, if_pos (by rw [hc1]; exact hchain),
      if_pos ⟨hc1, ht⟩]
    simp [Except.map, hc1]

/-- Every TT tensor the constructor returns satisfies the structural
invariants. -/
theorem fromCores3_structOK (cs : List Core3) (t : TTtens)
    (h : fromCores3 cs = .ok t) : structOK3 t := by
  obtain ⟨-, hchain, -, ht, rfl⟩ := fromCores3_ok_inv cs t h
  exact structOK3_mk cs hchain ht

/-- Every TT matrix the constructor returns satisfies the structural
invariants. -/
theorem fromCores4_structOK (cs : List Core4) (t : TTmat)
    (h : fromCores4 cs = .ok t) : structOK4 t := by
  obtain ⟨-, hchain, -, ht, rfl⟩ := fromCores4_ok_inv cs t h
  exact structOK4_mk cs hchain ht

/-- The constructor wrappers never fail with `ShapeMismatch`,
`IncompatibleTypes`, `TypeError` or any error outside the constructor's
own repertoire. -/
theorem fromCores3_error_sub (cs : List Core3) (e : PyError)
    (h : fromCores3 cs = .error e) :
    e = .IndexError ∨ e = .RankMismatch ∨ e = .InvalidArguments := by
  rcases hfb : fromBlocks (cs.map block3) with e' | d
  · rw [fromCores3, hfb] at h
    simp only [Except.map, Except.error.injEq] at h
    subst h
    exact fromBlocks_error_sub _ _ hfb
  · rw [fromCores3, hfb] at h
    simp [Except.map] at h

theorem fromCores4_error_sub (cs : List Core4) (e : PyError)
    (h : fromCores4 cs = .error e) :
    e = .IndexError ∨ e = .RankMismatch ∨ e = .InvalidArguments := by
  rcases hfb : fromBlocks (cs.map block4) with e' | d
  · rw [fromCores4, hfb] at h
    simp only [Except.map, Except.error.injEq] at h
    subst h
    exact fromBlocks_error_sub _ _ hfb
  · rw [fromCores4, hfb] at h
    simp [Except.map] at h

theorem brows_len_le (bs : List Block) : (brows bs).length ≤ bs.length := by
  induction bs with
  | nil => simp [brows]
  | cons b rest ih =>
    by_cases h : b.shape.length = 4 <;> simp [brows, h] <;> omega

theorem brows_len_lt (bs : List Block) (hb : ∃ b ∈ bs, b.shape.length ≠ 4) :
    (brows bs).length < bs.length := by
  induction bs with
  | nil => simp at hb
  | cons b rest ih =>
    rcases hb with ⟨c, hc, hc4⟩
    rcases List.mem_cons.mp hc with rfl | hc'
    · have := brows_len_le rest
      simp [brows, hc4]
      omega
    · by_cases h : b.shape.length = 4
      · have := ih ⟨c, hc', hc4⟩
        simp [brows, h]
        omega
      · have := brows_len_le rest
        simp [brows, h]
        omega

theorem brows_len_eq (bs : List Block) (h : ∀ b ∈ bs, b.shape.length = 4) :
    (brows bs).length = bs.length := by
  induction bs with
  | nil => simp [brows]
  | cons b rest ih =>
    have hb := h b (by simp)
    have := ih (fun c hc => h c (List.mem_cons_of_mem _ hc))
    simp [brows, hb]
    omega

theorem brows_pos (bs : List Block) (h : ∃ b ∈ bs, b.shape.length = 4) :
    brows bs ≠ [] := by
  induction bs with
  | nil => simp at h
  | cons b rest ih =>
    rcases h with ⟨c, hc, hc4⟩
    rcases List.mem_cons.mp hc with rfl | hc'
    · simp [brows, hc4]
    · by_cases hb : b.shape.length = 4
      · simp [brows, hb]
      · simpa [brows, hb] using ih ⟨c, hc', hc4⟩

theorem map_btrail_getLastD (bs : List Block) (h : bs ≠ []) (d : ℕ) :
    (bs.map btrail).getLastD d = btrail (bs.getLastD ⟨[]⟩) := by
  induction bs generalizing d with
  | nil => simp at h
  | cons b rest ih =>
    rcases rest with _ | ⟨c, rest'⟩
    · simp [List.getLastD]
    · rw [List.map_cons, List.getLastD_cons, List.getLastD_cons]
      exact ih (by simp) (btrail b)

/-- If every block of the list is 3- or 4-dimensional and some adjacent
pair of blocks has mismatched ranks, `TT.__init__` raises `RankMismatch`. -/
theorem fromBlocks_rankMismatch (bs : List Block)
    (hdim : ∀ b ∈ bs, bdimOK b) (hmis : hasMis bs = true) :
    fromBlocks bs = .error .RankMismatch := by
  rcases bs with _ | ⟨b, rest⟩
  · simp [hasMis] at hmis
  have hdb : bdimOK b := hdim b (by simp)
  rcases b with ⟨shape⟩
  have hshape : ∃ s0 tl, shape = s0 :: tl := by
    rcases hdb with h | h
    · obtain ⟨x, y, z, rfl⟩ := shape_three h
      exact ⟨x, [y, z], rfl⟩
    · obtain ⟨x, y, z, w, rfl⟩ := shape_four h
      exact ⟨x, [y, z, w], rfl⟩
  obtain ⟨s0, tl, rfl⟩ := hshape
  have hscan := initScan_mis (⟨s0 :: tl⟩ :: rest) [] [] [s0] hdim hmis
  simp only [List.headD_cons, blead, List.headD] at hscan
  simp only [fromBlocks, hscan]

/-- If no block is 0-dimensional, the whole chain links up and some block
is neither 3- nor 4-dimensional, the scan raises `InvalidArguments`. -/
theorem initScan_baddim :
    ∀ (bs : List Block) (N M R : List ℕ) (r : ℕ),
      (∀ b ∈ bs, b.shape ≠ []) → blinked bs r = true →
      (∃ b ∈ bs, ¬ bdimOK b) →
      initScan bs N M R r = .error .InvalidArguments := by
  intro bs
  induction bs with
  | nil => intro N M R r _ _ hbad; simp at hbad
  | cons b rest ih =>
    intro N M R r hne hlink hbad
    simp only [blinked, Bool.and_eq_true, beq_iff_eq] at hlink
    obtain ⟨hlead, hlink'⟩ := hlink
    by_cases hdb : bdimOK b
    · have hbad' : ∃ c ∈ rest, ¬ bdimOK c := by
        rcases hbad with ⟨c, hc, hcbad⟩
        rcases List.mem_cons.mp hc with rfl | hc'
        · exact absurd hdb hcbad
        · exact ⟨c, hc', hcbad⟩
      rcases b with ⟨shape⟩
      rcases hdb with h3 | h4
      · obtain ⟨x, y, z, rfl⟩ := shape_three h3
        have hx : x = r := by simpa [blead] using hlead
        rw [initScan_cons3 hx]
        exact ih _ _ _ _ (fun c hc => hne c (List.mem_cons_of_mem _ hc))
          (by simpa [btrail, List.getLastD] using hlink') hbad'
      · obtain ⟨x, y, z, w, rfl⟩ := shape_four h4
        have hx : x = r := by simpa [blead] using hlead
        rw [initScan_cons4 hx]
        exact ih _ _ _ _ (fun c hc => hne c (List.mem_cons_of_mem _ hc))
          (by simpa [btrail, List.getLastD] using hlink') hbad'
    · have hne0 : b.shape ≠ [] := hne b (by simp)
      rcases b with ⟨shape⟩
      rcases shape with _ | ⟨s0, tl⟩
      · simp at hne0
      have hs : s0 = r := by simpa [blead] using hlead
      rcases tl with _ | ⟨t1, _ | ⟨t2, _ | ⟨t3, _ | ⟨t4, tl'⟩⟩⟩⟩
      · simp [initScan, hs]
      · simp [initScan, hs]
      · exact absurd (Or.inl (by simp)) hdb
      · exact absurd (Or.inr (by simp)) hdb
      · simp [initScan, hs]

/-- `TT.__init__` rejects a block that is neither 3- nor 4-dimensional with
`InvalidArguments`, provided no rank mismatch preempts it. -/
theorem fromBlocks_baddim (bs : List Block)
    (hne : ∀ b ∈ bs, b.shape ≠ [])
    (hlink : blinked bs (blead (bs.headD ⟨[]⟩)) = true)
    (hbad : ∃ b ∈ bs, ¬ bdimOK b) :
    fromBlocks bs = .error .InvalidArguments := by
  rcases bs with _ | ⟨b, rest⟩
  · simp at hbad
  rcases b with ⟨shape⟩
  rcases shape with _ | ⟨s0, tl⟩
  · exact absurd rfl (hne ⟨[]⟩ (by simp))
  · have hscan := initScan_baddim (⟨s0 :: tl⟩ :: rest) [] [] [s0] s0 hne
      (by simpa [blead, List.headD_cons, List.headD] using hlink) hbad
    simp only [fromBlocks, hscan]

/-- `TT.__init__` rejects a list that mixes 3- and 4-dimensional blocks, or
whose first leading rank or last trailing rank is not 1, with
`InvalidArguments` (assuming the loop's earlier checks pass). -/
theorem fromBlocks_final_invalid (bs : List Block)
    (hne : bs ≠ [])
    (hdim : ∀ b ∈ bs, bdimOK b)
    (hlink : blinked bs (blead (bs.headD ⟨[]⟩)) = true)
    (hbd : ((∃ b ∈ bs, b.shape.length = 3) ∧ (∃ b ∈ bs, b.shape.length = 4)) ∨
      blead (bs.headD ⟨[]⟩) ≠ 1 ∨ btrail (bs.getLastD ⟨[]⟩) ≠ 1) :
    fromBlocks bs = .error .InvalidArguments := by
  rcases bs with _ | ⟨b, rest⟩
  · simp at hne
  have hdb : bdimOK b := hdim b (by simp)
  rcases b with ⟨shape⟩
  have hshape : ∃ s0 tl, shape = s0 :: tl := by
    rcases hdb with h | h
    · obtain ⟨x, y, z, rfl⟩ := shape_three h
      exact ⟨x, [y, z], rfl⟩
    · obtain ⟨x, y, z, w, rfl⟩ := shape_four h
      exact ⟨x, [y, z, w], rfl⟩
  obtain ⟨s0, tl, rfl⟩ := hshape
  have hscan := initScan_linked (⟨s0 :: tl⟩ :: rest) [] [] [s0] s0 hdim
    (by simpa [blead, List.headD_cons, List.headD] using hlink)
  simp only [List.nil_append] at hscan
  simp only [fromBlocks, hscan]
  rw [if_pos ?_]
  have hlenN : ((⟨s0 :: tl⟩ :: rest : List Block).map bmode).length =
      (⟨s0 :: tl⟩ :: rest : List Block).length := by simp
  have hlast : (([s0] ++ (⟨s0 :: tl⟩ :: rest : List Block).map btrail).getLastD 0) =
      btrail ((⟨s0 :: tl⟩ :: rest : List Block).getLastD ⟨[]⟩) := by
    rw [List.singleton_append, List.getLastD_cons]
    exact map_btrail_getLastD _ (by simp) s0
  rcases hbd with ⟨⟨c3, hc3, h3⟩, ⟨c4, hc4, h4⟩⟩ | hbd | hbd
  · refine Or.inr (Or.inr (Or.inr (Or.inr ⟨?_, ?_⟩)))
    · exact brows_pos _ ⟨c4, hc4, h4⟩
    · rw [hlenN]
      exact Nat.ne_of_lt (brows_len_lt _ ⟨c3, hc3, by omega⟩)
  · refine Or.inr (Or.inr (Or.inl ?_))
    simpa [blead, List.headD_cons, List.headD] using hbd
  · refine Or.inr (Or.inr (Or.inr (Or.inl ?_)))
    rw [hlast]
    exact hbd

/-- On a successful construction the object is tagged as a TT-matrix
exactly when every block is 4-dimensional. -/
theorem fromBlocks_ttm_iff (bs : List Block) (d : InitData)
    (h : fromBlocks bs = .ok d) :
    (d.is_ttm = true ↔ ∀ b ∈ bs, b.shape.length = 4) := by
  rcases bs with _ | ⟨b, rest⟩
  · simp [fromBlocks] at h
  rcases b with ⟨shape⟩
  rcases shape with _ | ⟨s0, tl⟩
  · simp [fromBlocks] at h
  simp only [fromBlocks] at h
  rcases hscan : initScan (⟨s0 :: tl⟩ :: rest) [] [] [s0] s0 with e' | ⟨N1, M1, R1⟩
  · rw [hscan] at h; exact absurd h (by simp)
  · rw [hscan] at h
    obtain ⟨hdim, -, hN1, hM1, -⟩ := initScan_ok_inv _ _ _ _ _ _ hscan
    split at h
    · exact absurd h (by simp)
    · rename_i N2 M2 R2 heq
      simp only [Except.ok.injEq, Prod.mk.injEq] at heq
      obtain ⟨e1, e2, e3⟩ := heq
      subst e1; subst e2; subst e3
      split at h
      · exact absurd h (by simp)
      · injection h with h2
        subst h2
        simp only [List.nil_append] at hN1 hM1
        constructor
        · intro httm c hc
          simp only [hM1, hN1, beq_iff_eq, List.length_map] at httm
          by_contra hc4
          have hlt := brows_len_lt (⟨s0 :: tl⟩ :: rest) ⟨c, hc, hc4⟩
          omega
        · intro hall
          simp only [hM1, hN1, beq_iff_eq, List.length_map]
          exact brows_len_eq _ hall

/-- C4: constructing a TT from a list of cores validates the list: a
leading dimension that differs from the preceding trailing dimension gives
`RankMismatch`; a core that is neither 3- nor 4-dimensional gives
`InvalidArguments`; mixing 3- and 4-dimensional cores, or a first leading
rank or last trailing rank different from 1, gives `InvalidArguments`; and
on success the object is tagged as a TT-matrix exactly when the cores are
4-dimensional. -/
theorem claim_C4 :
    (∀ bs : List Block, (∀ b ∈ bs, bdimOK b) → hasMis bs = true →
      fromBlocks bs = .error .RankMismatch) ∧
    (∀ bs : List Block, (∀ b ∈ bs, b.shape ≠ []) →
      blinked bs (blead (bs.headD ⟨[]⟩)) = true → (∃ b ∈ bs, ¬ bdimOK b) →
      fromBlocks bs = .error .InvalidArguments) ∧
    (∀ bs : List Block, bs ≠ [] → (∀ b ∈ bs, bdimOK b) →
      blinked bs (blead (bs.headD ⟨[]⟩)) = true →
      (((∃ b ∈ bs, b.shape.length = 3) ∧ (∃ b ∈ bs, b.shape.length = 4)) ∨
        blead (bs.headD ⟨[]⟩) ≠ 1 ∨ btrail (bs.getLastD ⟨[]⟩) ≠ 1) →
      fromBlocks bs = .error .InvalidArguments) ∧
    (∀ (bs : List Block) (d : InitData), fromBlocks bs = .ok d →
      (d.is_ttm = true ↔ ∀ b ∈ bs, b.shape.length = 4)) :=
  ⟨fromBlocks_rankMismatch, fromBlocks_baddim, fromBlocks_final_invalid,
    fromBlocks_ttm_iff⟩

/-- Witness for C4 at concrete block lists: a rank mismatch `2` against
`3`, a 2-dimensional block, a mixed 3d/4d list, and a successful
construction from a single 3d core tagged as a plain tensor. -/
theorem claim_C4_witness :
    ((∀ b ∈ [(⟨[1, 2, 2]⟩ : Block), ⟨[3, 2, 1]⟩], bdimOK b) ∧
      hasMis [(⟨[1, 2, 2]⟩ : Block), ⟨[3, 2, 1]⟩] = true ∧
      fromBlocks [⟨[1, 2, 2]⟩, ⟨[3, 2, 1]⟩] = .error .RankMismatch) ∧
    ((∀ b ∈ [(⟨[1, 2, 2]⟩ : Block), ⟨[2, 2]⟩], b.shape ≠ []) ∧
      blinked [(⟨[1, 2, 2]⟩ : Block), ⟨[2, 2]⟩]
        (blead (([(⟨[1, 2, 2]⟩ : Block), ⟨[2, 2]⟩]).headD ⟨[]⟩)) = true ∧
      (∃ b ∈ [(⟨[1, 2, 2]⟩ : Block), ⟨[2, 2]⟩], ¬ bdimOK b) ∧
      fromBlocks [⟨[1, 2, 2]⟩, ⟨[2, 2]⟩] = .error .InvalidArguments) ∧
    (fromBlocks [⟨[1, 2, 2]⟩, ⟨[2, 3, 3, 1]⟩] = .error .InvalidArguments) ∧
    (fromBlocks [⟨[1, 2, 1]⟩] =
        .ok (⟨[2], [], [1, 1], false⟩ : InitData) ∧
      ((⟨[2], [], [1, 1], false⟩ : InitData).is_ttm = true ↔
        ∀ b ∈ [(⟨[1, 2, 1]⟩ : Block)], b.shape.length = 4)) := by
  refine ⟨⟨by decide, by decide, ?_⟩, ⟨by decide, by decide, ⟨⟨[2, 2]⟩, by decide, by decide⟩, ?_⟩,
    ?_, rfl, ?_⟩
  · exact claim_C4.1 _ (by decide) (by decide)
  · exact claim_C4.2.1 _ (by decide) (by decide) ⟨⟨[2, 2]⟩, by decide, by decide⟩
  · exact claim_C4.2.2.1 _ (by decide) (by decide) (by decide)
      (Or.inl ⟨⟨⟨[1, 2, 2]⟩, by decide, by decide⟩, ⟨⟨[2, 3, 3, 1]⟩, by decide, by decide⟩⟩)
  · exact claim_C4.2.2.2 _ _ rfl

/-- Contraction of a TT core chain against a multi-index:
`ttEvalAux cs idx a b` is the `(a, b)` entry of the product of the
mode-`idx` slices of the cores (`a` indexes the leading rank of the first
core, `b` the trailing rank after the last).  A length mismatch between
`cs` and `idx` gives `0`. -/
def ttEvalAux : List Core3 → List ℕ → ℕ → ℕ → ℚ
  | [], [], a, b => if a = b then 1 else 0
  | c :: cs, i :: is, a, b =>
    ∑ k in Finset.range c.r2, c.entry a i k * ttEvalAux cs is k b
  | _, _, _, _ => 0

/-- The dense tensor represented by a TT tensor (`TT.full`): both boundary
rank indices are fixed to `0`, matching `cores[0][0,:,:]` and
`cores[-1][:,:,0]` in the source. -/
def ttFull (t : TTtens) (idx : List ℕ) : ℚ := ttEvalAux t.cores idx 0 0

theorem div_encode (a p r : ℕ) (h : p < r) : (a * r + p) / r = a := by
  rw [Nat.mul_comm, Nat.mul_add_div (by omega)]
  simp [Nat.div_eq_of_lt h]

theorem mod_encode (a p r : ℕ) (h : p < r) : (a * r + p) % r = p := by
  rw [Nat.mul_comm, Nat.mul_add_mod]
  exact Nat.mod_eq_of_lt h

/-- Splitting a sum over `range (m * n)` along the row-major encoding
`k = u * n + v`. -/
theorem sum_range_mul_split (f : ℕ → ℚ) (m n : ℕ) :
    ∑ k in Finset.range (m * n), f k =
      ∑ u in Finset.range m, ∑ v in Finset.range n, f (u * n + v) := by
  induction m with
  | zero => simp
  | succ m ih =>
    have hsplit : ∑ k in Finset.range (m * n + n), f k =
        (∑ k in Finset.range (m * n), f k) +
          ∑ k in Finset.Ico (m * n) (m * n + n), f k := by
      rw [Finset.range_eq_Ico]
      exact (Finset.sum_Ico_consecutive f (Nat.zero_le (m * n))
        (Nat.le_add_right (m * n) n)).symm
    have hico : ∑ k in Finset.Ico (m * n) (m * n + n), f k =
        ∑ v in Finset.range n, f (m * n + v) := by
      rw [Finset.sum_Ico_eq_sum_range]
      simp
    rw [Nat.succ_mul, hsplit, hico, ih, Finset.sum_range_succ]

/-- Elementwise (Hadamard) product core, `TT.__mul__` tensor case:
`tn.einsum('aib,min->amibn', c, d)` reshaped to
`(c.r1*d.r1, n, c.r2*d.r2)`.  The reshape makes the row index `a*d.r1 + m`
and the column index `b*d.r2 + n`, decoded with division and remainder. -/
def hadamardCore (c d : Core3) : Core3 where
  r1 := c.r1 * d.r1
  n := c.n
  r2 := c.r2 * d.r2
  entry := fun a i b =>
    c.entry (a / d.r1) i (b / d.r2) * d.entry (a % d.r1) i (b % d.r2)

/-- Elementwise product core for two TT-matrix cores
(`tn.einsum('aijb,mijn->amijbn', c, d)` reshaped). -/
def hadamardCore4 (c d : Core4) : Core4 where
  r1 := c.r1 * d.r1
  m := c.m
  n := c.n
  r2 := c.r2 * d.r2
  entry := fun a i j b =>
    c.entry (a / d.r1) i j (b / d.r2) * d.entry (a % d.r1) i j (b % d.r2)

/-- The TT contraction of a chain of Hadamard-product cores factors into
the product of the two contractions, one per operand.  The left rank index
is decoded as `a * r + p` with `r` the leading rank of `ds`. -/
theorem ttEvalAux_hadamard :
    ∀ (cs ds : List Core3) (idx : List ℕ) (a p r : ℕ),
      cs.length = ds.length → chainB ds r = true → p < r →
      ttEvalAux (List.zipWith hadamardCore cs ds) idx (a * r + p) 0 =
        ttEvalAux cs idx a 0 * ttEvalAux ds idx p 0 := by
  intro cs
  induction cs with
  | nil =>
    intro ds idx a p r hlen hchain hp
    have hds : ds = [] := by
      rcases ds with _ | ⟨d, ds'⟩
      · rfl
      · simp at hlen
    subst hds
    have hr : 0 < r := lt_of_le_of_lt (Nat.zero_le p) hp
    have hz : (a * r + p = 0) ↔ (a = 0 ∧ p = 0) := by
      constructor
      · intro h0
        have h1 : a * r = 0 ∧ p = 0 := by omega
        rcases Nat.mul_eq_zero.mp h1.1 with h | h
        · exact ⟨h, h1.2⟩
        · omega
      · rintro ⟨rfl, rfl⟩; simp
    rcases idx with _ | ⟨i, is⟩
    · simp only [List.zipWith_nil_right, ttEvalAux]
      by_cases ha : a = 0 <;> by_cases hp0 : p = 0 <;>
        simp [ha, hp0, hz] <;> omega
    · simp [ttEvalAux]
  | cons c cs' ih =>
    intro ds idx a p r hlen hchain hp
    rcases ds with _ | ⟨d, ds'⟩
    · simp at hlen
    rcases idx with _ | ⟨i, is⟩
    · simp [ttEvalAux]
    simp only [chainB, Bool.and_eq_true, beq_iff_eq] at hchain
    obtain ⟨hd1, hchain'⟩ := hchain
    simp only [List.zipWith_cons_cons, ttEvalAux]
    rw [show (hadamardCore c d).r2 = c.r2 * d.r2 from rfl]
    rw [sum_range_mul_split]
    have hstep : ∀ u ∈ Finset.range c.r2, ∀ v ∈ Finset.range d.r2,
        (hadamardCore c d).entry (a * r + p) i (u * d.r2 + v) *
          ttEvalAux (List.zipWith hadamardCore cs' ds') is (u * d.r2 + v) 0 =
        (c.entry a i u * ttEvalAux cs' is u 0) *
          (d.entry p i v * ttEvalAux ds' is v 0) := by
      intro u hu v hv
      have hv' : v < d.r2 := Finset.mem_range.mp hv
      have hent : (hadamardCore c d).entry (a * r + p) (i) (u * d.r2 + v) =
          c.entry a i u * d.entry p i v := by
        show c.entry ((a * r + p) / d.r1) i ((u * d.r2 + v) / d.r2) *
            d.entry ((a * r + p) % d.r1) i ((u * d.r2 + v) % d.r2) = _
        rw [hd1, div_encode a p r hp, mod_encode a p r hp,
          div_encode u v d.r2 hv', mod_encode u v d.r2 hv']
      rw [hent, ih ds' is u v d.r2 (by simpa using hlen) hchain' hv']
      ring
    rw [Finset.sum_congr rfl fun u hu =>
      Finset.sum_congr rfl fun v hv => hstep u hu v hv]
    rw [← Finset.sum_mul_sum]

theorem chainB_of_adj :
    ∀ (cs : List Core3) (R : List ℕ) (r : ℕ),
      R.length = cs.length + 1 → R.headD 0 = r →
      (∀ i < cs.length,
        (cs.getD i default).r1 = R.getD i 0 ∧
        (cs.getD i default).r2 = R.getD (i + 1) 0) →
      chainB cs r = true := by
  intro cs
  induction cs with
  | nil => intro R r _ _ _; rfl
  | cons c rest ih =>
    intro R r hlen hhead hadj
    rcases R with _ | ⟨r0, R'⟩
    · simp at hlen
    have h0 := hadj 0 (by simp)
    simp only [List.getD_cons_zero, List.getD_cons_succ] at h0
    simp only [chainB, Bool.and_eq_true, beq_iff_eq]
    refine ⟨by rw [h0.1]; exact hhead, ?_⟩
    apply ih R' c.r2
    · simpa using hlen
    · have hR' : R' ≠ [] := by
        have hl : R'.length = rest.length + 1 := by simpa using hlen
        intro hh
        rw [hh] at hl
        simp at hl
      rcases R' with _ | ⟨a, l⟩
      · simp at hR'
      · simpa using h0.2.symm
    · intro i hi
      have := hadj (i + 1) (by simpa using hi)
      simpa using this

theorem chainB4_of_adj :
    ∀ (cs : List Core4) (R : List ℕ) (r : ℕ),
      R.length = cs.length + 1 → R.headD 0 = r →
      (∀ i < cs.length,
        (cs.getD i default).r1 = R.getD i 0 ∧
        (cs.getD i default).r2 = R.getD (i + 1) 0) →
      chainB4 cs r = true := by
  intro cs
  induction cs with
  | nil => intro R r _ _ _; rfl
  | cons c rest ih =>
    intro R r hlen hhead hadj
    rcases R with _ | ⟨r0, R'⟩
    · simp at hlen
    have h0 := hadj 0 (by simp)
    simp only [List.getD_cons_zero, List.getD_cons_succ] at h0
    simp only [chainB4, Bool.and_eq_true, beq_iff_eq]
    refine ⟨by rw [h0.1]; exact hhead, ?_⟩
    apply ih R' c.r2
    · simpa using hlen
    · have hR' : R' ≠ [] := by
        have hl : R'.length = rest.length + 1 := by simpa using hlen
        intro hh
        rw [hh] at hl
        simp at hl
      rcases R' with _ | ⟨a, l⟩
      · simp at hR'
      · simpa using h0.2.symm
    · intro i hi
      have := hadj (i + 1) (by simpa using hi)
      simpa using this

theorem getLastD_eq_getD (l : List ℕ) (d : ℕ) (h : l ≠ []) :
    l.getLastD d = l.getD (l.length - 1) d := by
  have hlen : l.length - 1 < l.length := by
    rcases l with _ | ⟨a, t⟩
    · simp at h
    · simp
  rw [List.getLastD_eq_getLast?, List.getLast?_eq_getLast_of_ne_nil h,
    Option.getD_some, List.getLast_eq_getElem,
    List.getD_eq_getElem?_getD, List.getElem?_eq_getElem hlen, Option.getD_some]

theorem trail3_getD (cs : List Core3) (h : cs ≠ []) :
    trail3 cs = (cs.getD (cs.length - 1) default).r2 := by
  induction cs with
  | nil => simp at h
  | cons c rest ih =>
    rcases rest with _ | ⟨d, rest'⟩
    · simp [trail3]
    · rw [show trail3 (c :: d :: rest') = trail3 (d :: rest') from rfl,
        ih (by simp)]
      simp

theorem trail4_getD (cs : List Core4) (h : cs ≠ []) :
    trail4 cs = (cs.getD (cs.length - 1) default).r2 := by
  induction cs with
  | nil => simp at h
  | cons c rest ih =>
    rcases rest with _ | ⟨d, rest'⟩
    · simp [trail4]
    · rw [show trail4 (c :: d :: rest') = trail4 (d :: rest') from rfl,
        ih (by simp)]
      simp

/-- A TT tensor satisfying the structural invariants has cores that chain
from rank 1 to trailing rank 1. -/
theorem structOK3_chain (t : TTtens) (h : structOK3 t) :
    chainB t.cores 1 = true ∧ trail3 t.cores = 1 := by
  obtain ⟨hlen, hhead, hlast, hclen, hadj⟩ := h
  constructor
  · exact chainB_of_adj t.cores t.R 1 (by omega) hhead hadj
  · rcases hcs : t.cores with _ | ⟨c, rest⟩
    · rfl
    · rw [← hcs]
      have hne : t.cores ≠ [] := by rw [hcs]; exact (by simp)
      have hi : t.cores.length - 1 < t.cores.length := by
        rw [hcs]; simp
      have h2 := (hadj _ hi).2
      have hRne : t.R ≠ [] := by
        intro hh
        rw [hh] at hlen
        simp at hlen
      have hidx : t.cores.length - 1 + 1 = t.R.length - 1 := by
        have : t.N.length = t.cores.length := hclen.symm
        rw [hcs] at this ⊢
        simp only [List.length_cons] at this ⊢
        omega
      rw [trail3_getD t.cores hne, h2, hidx, ← getLastD_eq_getD t.R 0 hRne]
      exact hlast

theorem structOK4_chain (t : TTmat) (h : structOK4 t) :
    chainB4 t.cores 1 = true ∧ trail4 t.cores = 1 := by
  obtain ⟨hlen, hhead, hlast, hclen, hadj⟩ := h
  constructor
  · exact chainB4_of_adj t.cores t.R 1 (by omega) hhead hadj
  · rcases hcs : t.cores with _ | ⟨c, rest⟩
    · rfl
    · rw [← hcs]
      have hne : t.cores ≠ [] := by rw [hcs]; exact (by simp)
      have hi : t.cores.length - 1 < t.cores.length := by
        rw [hcs]; simp
      have h2 := (hadj _ hi).2
      have hRne : t.R ≠ [] := by
        intro hh
        rw [hh] at hlen
        simp at hlen
      have hidx : t.cores.length - 1 + 1 = t.R.length - 1 := by
        have : t.N.length = t.cores.length := hclen.symm
        rw [hcs] at this ⊢
        simp only [List.length_cons] at this ⊢
        omega
      rw [trail4_getD t.cores hne, h2, hidx, ← getLastD_eq_getD t.R 0 hRne]
      exact hlast

theorem getD_map' {α β : Type} (f : α → β) (l : List α) (i : ℕ)
    (dα : α) (dβ : β) (h : i < l.length) :
    (l.map f).getD i dβ = f (l.getD i dα) := by
  induction l generalizing i with
  | nil => simp at h
  | cons x xs ih =>
    cases i with
    | zero => simp
    | succ j => simpa using ih j (by simpa using h)

theorem getD_zipWith' {α β γ : Type} (f : α → β → γ) (l1 : List α)
    (l2 : List β) (i : ℕ) (d1 : α) (d2 : β) (d3 : γ)
    (h1 : i < l1.length) (h2 : i < l2.length) :
    (List.zipWith f l1 l2).getD i d3 = f (l1.getD i d1) (l2.getD i d2) := by
  induction l1 generalizing l2 i with
  | nil => simp at h1
  | cons x xs ih =>
    rcases l2 with _ | ⟨y, ys⟩
    · simp at h2
    cases i with
    | zero => simp
    | succ j => simpa using ih ys j (by simpa using h1) (by simpa using h2)

theorem getD_zero_headD (l : List ℕ) (h : l ≠ []) : l.getD 0 0 = l.headD 0 := by
  rcases l with _ | ⟨a, t⟩
  · simp at h
  · simp

/-- Position-by-position equality of the mode sizes of two core lists
(the `einsum` contractions in `__mul__` need the actual core mode
dimensions to agree; a disagreement is a backend RuntimeError). -/
def modesEq3 : List Core3 → List Core3 → Bool
  | c :: cs, d :: ds => (c.n == d.n) && modesEq3 cs ds
  | _, _ => true

def modesEq4 : List Core4 → List Core4 → Bool
  | c :: cs, d :: ds => (c.m == d.m) && (c.n == d.n) && modesEq4 cs ds
  | _, _ => true

/-- Second operand of `TT.__mul__` as the Python dispatch sees it. -/
inductive MulOperand : Type
  | ttobj (t : TTObj)
  | intScalar (s : ℤ)
  | floatScalar (s : ℚ)
  | torchTensor (v : ℚ)
  | other

/-- Scalar multiplication of the core list:
`cores_new = [c+0 for c in self.cores]` makes fresh cores, then
`cores_new[0] *= other` scales only the first one. -/
def scaleCores3 (cs : List Core3) (s : ℚ) : List Core3 :=
  match cs with
  | [] => []
  | c :: rest => ⟨c.r1, c.n, c.r2, fun a i b => c.entry a i b * s⟩ :: rest

def scaleCores4 (cs : List Core4) (s : ℚ) : List Core4 :=
  match cs with
  | [] => []
  | c :: rest => ⟨c.r1, c.m, c.n, c.r2, fun a i j b => c.entry a i j b * s⟩ :: rest

/-- `TT.__mul__` between two TT tensors: shape guard
(`self.N != other.N` → `ShapeMismatch`), then the per-core Hadamard
construction fed to the validating constructor. -/
def ttMulTT (a b : TTtens) : Except PyError TTtens :=
  if a.N ≠ b.N then .error .ShapeMismatch
  else if b.cores.length < a.cores.length then .error .IndexError
  else if modesEq3 a.cores b.cores then
    fromCores3 (List.zipWith hadamardCore a.cores b.cores)
  else .error .BackendError

/-- `TT.__mul__` between two TT matrices. -/
def ttMulTTM (a b : TTmat) : Except PyError TTmat :=
  if a.N ≠ b.N ∨ a.M ≠ b.M then .error .ShapeMismatch
  else if b.cores.length < a.cores.length then .error .IndexError
  else if modesEq4 a.cores b.cores then
    fromCores4 (List.zipWith hadamardCore4 a.cores b.cores)
  else .error .BackendError

/-- `TT.__mul__`: dispatch on the operand as the source does.  For an
operand that is neither a `TT` nor an `int` nor a `float`, the source
evaluates `isinstance(other, tn.tensor)`; `tn.tensor` is a function, not a
type, so the `isinstance` call itself raises `TypeError` — torch tensors
(and any other object) never reach the scalar branch or the dead
`InvalidArguments` raise after it. -/
def ttMul (x : TTObj) (o : MulOperand) : Except PyError TTObj :=
  match o with
  | .ttobj y =>
    match x, y with
    | .mat a, .mat b => (ttMulTTM a b).map .mat
    | .tens a, .tens b => (ttMulTT a b).map .tens
    | _, _ => .error .IncompatibleTypes
  | .intScalar s =>
    match x with
    | .tens a => (fromCores3 (scaleCores3 a.cores (s : ℚ))).map .tens
    | .mat a => (fromCores4 (scaleCores4 a.cores (s : ℚ))).map .mat
  | .floatScalar s =>
    match x with
    | .tens a => (fromCores3 (scaleCores3 a.cores s)).map .tens
    | .mat a => (fromCores4 (scaleCores4 a.cores s)).map .mat
  | .torchTensor _ => .error .TypeError
  | .other => .error .TypeError

/-- `r` is a `TypeError` outcome. -/
def isTypeError : Except PyError TTObj → Bool
  | .error .TypeError => true
  | _ => false

/-- C10: for every TT object `x` and every operand that is a torch tensor
but not a TT instance (including a one-element scalar tensor), `x * t`
raises `TypeError` — the scalar branch tests `isinstance(other, tn.tensor)`
and `torch.tensor` is a function, not a type, so the `isinstance` call
itself fails; multiplication by Python `int` and `float` scalars is
unaffected by this branch. -/
theorem claim_C10 :
    (∀ (x : TTObj) (v : ℚ), ttMul x (.torchTensor v) = .error .TypeError) ∧
    (∀ (x : TTObj) (s : ℤ), isTypeError (ttMul x (.intScalar s)) = false) ∧
    (∀ (x : TTObj) (s : ℚ), isTypeError (ttMul x (.floatScalar s)) = false) := by
  refine ⟨fun x v => rfl, fun x s => ?_, fun x s => ?_⟩
  · rcases x with a | a
    · rcases hfc : fromCores3 (scaleCores3 a.cores (s : ℚ)) with e | t
      · have := fromCores3_error_sub _ _ hfc
        simp only [ttMul, hfc, Except.map]
        rcases this with rfl | rfl | rfl <;> rfl
      · simp [ttMul, hfc, Except.map, isTypeError]
    · rcases hfc : fromCores4 (scaleCores4 a.cores (s : ℚ)) with e | t
      · have := fromCores4_error_sub _ _ hfc
        simp only [ttMul, hfc, Except.map]
        rcases this with rfl | rfl | rfl <;> rfl
      · simp [ttMul, hfc, Except.map, isTypeError]
  · rcases x with a | a
    · rcases hfc : fromCores3 (scaleCores3 a.cores s) with e | t
      · have := fromCores3_error_sub _ _ hfc
        simp only [ttMul, hfc, Except.map]
        rcases this with rfl | rfl | rfl <;> rfl
      · simp [ttMul, hfc, Except.map, isTypeError]
    · rcases hfc : fromCores4 (scaleCores4 a.cores s) with e | t
      · have := fromCores4_error_sub _ _ hfc
        simp only [ttMul, hfc, Except.map]
        rcases this with rfl | rfl | rfl <;> rfl
      · simp [ttMul, hfc, Except.map, isTypeError]

theorem ttMulTT_ok_inv (a b t : TTtens) (h : ttMulTT a b = .ok t) :
    a.N = b.N ∧ a.cores.length ≤ b.cores.length ∧
      fromCores3 (List.zipWith hadamardCore a.cores b.cores) = .ok t := by
  unfold ttMulTT at h
  split_ifs at h with h1 h2 h3
  exact ⟨not_not.mp h1, Nat.le_of_not_lt h2, h⟩

/-- C3: for TT tensors with equal mode sizes the Hadamard product has
ranks `R[i] = A.R[i] * B.R[i]` at every boundary and its dense form is the
elementwise product of the operands' dense forms. -/
theorem claim_C3 (a b t : TTtens)
    (ha : structOK3 a) (hb : structOK3 b) (hN : a.N = b.N)
    (hok : ttMulTT a b = .ok t) :
    (∀ i < t.R.length, t.R.getD i 0 = a.R.getD i 0 * b.R.getD i 0) ∧
    (∀ idx : List ℕ, ttFull t idx = ttFull a idx * ttFull b idx) := by
  obtain ⟨-, -, hfc⟩ := ttMulTT_ok_inv a b t hok
  obtain ⟨hzne, hzchain, -, -, rfl⟩ := fromCores3_ok_inv _ _ hfc
  obtain ⟨hlenA, hheadA, -, hclenA, hadjA⟩ := id ha
  obtain ⟨hlenB, hheadB, -, hclenB, hadjB⟩ := id hb
  have hcl : a.cores.length = b.cores.length := by
    rw [hclenA, hclenB, hN]
  have hzlen : (List.zipWith hadamardCore a.cores b.cores).length
      = a.cores.length := by
    rw [List.length_zipWith, hcl, Nat.min_self]
  constructor
  · intro i hi
    simp only [List.length_cons, List.length_map, hzlen] at hi
    cases i with
    | zero =>
      have hAne : a.R ≠ [] := by
        intro hh; rw [hh] at hlenA; simp at hlenA
      have hBne : b.R ≠ [] := by
        intro hh; rw [hh] at hlenB; simp at hlenB
      simp only [List.getD_cons_zero]
      rw [getD_zero_headD a.R hAne, getD_zero_headD b.R hBne, hheadA, hheadB]
    | succ j =>
      have hj : j < a.cores.length := by omega
      have hjB : j < b.cores.length := by omega
      have hjz : j < (List.zipWith hadamardCore a.cores b.cores).length := by
        rw [hzlen]; exact hj
      have e1 : (List.map (fun x => x.r2)
            (List.zipWith hadamardCore a.cores b.cores)).getD j 0
          = ((List.zipWith hadamardCore a.cores b.cores).getD j default).r2 :=
        getD_map' (fun x => x.r2) _ j default 0 hjz
      have e2 : (List.zipWith hadamardCore a.cores b.cores).getD j default
          = hadamardCore (a.cores.getD j default) (b.cores.getD j default) :=
        getD_zipWith' hadamardCore a.cores b.cores j default default default hj hjB
      simp only [List.getD_cons_succ]
      rw [e1, e2]
      rw [show (hadamardCore (a.cores.getD j default) (b.cores.getD j default)).r2
          = (a.cores.getD j default).r2 * (b.cores.getD j default).r2 from rfl]
      rw [(hadjA j hj).2, (hadjB j hjB).2]
  · intro idx
    have hchainB1 : chainB b.cores 1 = true := (structOK3_chain b hb).1
    have := ttEvalAux_hadamard a.cores b.cores idx 0 0 1 hcl hchainB1 (by omega)
    simpa [ttFull] using this

/-- Sample tensors for the witnesses: one mode of size 2, rank one. -/
def coreA : Core3 := ⟨1, 2, 1, fun _ i _ => if i = 0 then 2 else 3⟩

def coreB : Core3 := ⟨1, 2, 1, fun _ i _ => if i = 0 then 5 else 7⟩

def tensA : TTtens := ⟨[coreA], [2], [1, 1]⟩

def tensB : TTtens := ⟨[coreB], [2], [1, 1]⟩

/-- The computed product `tensA * tensB`. -/
def tensAB : TTtens :=
  match ttMulTT tensA tensB with
  | .ok t => t
  | .error _ => default

theorem claim_C3_witness :
    (structOK3 tensA ∧ structOK3 tensB ∧ tensA.N = tensB.N ∧
      ttMulTT tensA tensB = .ok tensAB) ∧
    tensAB.R.getD 1 0 = tensA.R.getD 1 0 * tensB.R.getD 1 0 ∧
    ttFull tensAB [1] = ttFull tensA [1] * ttFull tensB [1] := by
  refine ⟨⟨by decide, by decide, rfl, rfl⟩, ?_, ?_⟩
  · exact (claim_C3 tensA tensB tensAB (by decide) (by decide) rfl rfl).1 1
      (by decide)
  · exact (claim_C3 tensA tensB tensAB (by decide) (by decide) rfl rfl).2 [1]

/-- Second operand of `TT.__add__` / `TT.__sub__` as the Python dispatch
sees it: a scalar (`np.isscalar` or a one-element torch tensor), a TT
object, or anything else (a string, a list, ...). -/
inductive AddOperand : Type
  | scalar (s : ℚ)
  | ttobj (t : TTObj)
  | other

/-- Negated core (`-other.cores[i]`, used by `__sub__` at `i == 0`). -/
def negCore3 (c : Core3) : Core3 :=
  ⟨c.r1, c.n, c.r2, fun a j b => -(c.entry a j b)⟩

def negCore4 (c : Core4) : Core4 :=
  ⟨c.r1, c.m, c.n, c.r2, fun a i j b => -(c.entry a i j b)⟩

/-- Collect a list of fallible computations, stopping at the first
error (the Python loop raises at the first failing core). -/
def collectE {α : Type} : List (Except PyError α) → Except PyError (List α)
  | [] => .ok []
  | .error e :: _ => .error e
  | .ok c :: rest => (collectE rest).map (c :: ·)

/-- Padded sum of one pair of cores in the TT-TT branch of
`TT.__add__` / `TT.__sub__` (tensor case):
`tnf.pad(self.cores[i], pad1) + tnf.pad(other.cores[i], pad2)`.
The self core is padded at the end of both rank dimensions and the other
core at the front, by the STORED rank attributes of the operands; at the
first (last) position the leading (trailing) rank dimension is left
unpadded.  The backend addition needs equal padded shapes; a mismatch is a
torch RuntimeError, modelled as `BackendError` (torch's size-1 broadcasting
is not modelled — no claim depends on it). -/
def addCore3 (c d : Core3) (sR1 sR2 oR1 oR2 : ℕ) (first last : Bool) :
    Except PyError Core3 :=
  if c.r1 + (if first then 0 else oR1) = (if first then 0 else sR1) + d.r1 ∧
      c.n = d.n ∧
      c.r2 + (if last then 0 else oR2) = (if last then 0 else sR2) + d.r2 then
    .ok ⟨c.r1 + (if first then 0 else oR1), c.n,
      c.r2 + (if last then 0 else oR2), fun a j b =>
      (if a < c.r1 ∧ b < c.r2 then c.entry a j b else 0) +
      (if (if first then 0 else sR1) ≤ a ∧ (if last then 0 else sR2) ≤ b
       then d.entry (a - (if first then 0 else sR1)) j
         (b - (if last then 0 else sR2)) else 0)⟩
  else .error .BackendError

/-- The TT-matrix analogue of `addCore3` (padding on dimensions 0 and 3). -/
def addCore4 (c d : Core4) (sR1 sR2 oR1 oR2 : ℕ) (first last : Bool) :
    Except PyError Core4 :=
  if c.r1 + (if first then 0 else oR1) = (if first then 0 else sR1) + d.r1 ∧
      c.m = d.m ∧ c.n = d.n ∧
      c.r2 + (if last then 0 else oR2) = (if last then 0 else sR2) + d.r2 then
    .ok ⟨c.r1 + (if first then 0 else oR1), c.m, c.n,
      c.r2 + (if last then 0 else oR2), fun a i j b =>
      (if a < c.r1 ∧ b < c.r2 then c.entry a i j b else 0) +
      (if (if first then 0 else sR1) ≤ a ∧ (if last then 0 else sR2) ≤ b
       then d.entry (a - (if first then 0 else sR1)) i j
         (b - (if last then 0 else sR2)) else 0)⟩
  else .error .BackendError

/-- The core list built by the TT-TT branch of `__add__` (`neg := false`)
or `__sub__` (`neg := true`, where the other operand's first core is
negated). -/
def buildAdd3 (a b : TTtens) (neg : Bool) : Except PyError (List Core3) :=
  collectE ((List.range a.N.length).map fun i =>
    addCore3 (a.cores.getD i default)
      (if neg && i == 0 then negCore3 (b.cores.getD i default)
       else b.cores.getD i default)
      (a.R.getD i 0) (a.R.getD (i + 1) 0) (b.R.getD i 0) (b.R.getD (i + 1) 0)
      (i == 0) (i == a.N.length - 1))

def buildAdd4 (a b : TTmat) (neg : Bool) : Except PyError (List Core4) :=
  collectE ((List.range a.N.length).map fun i =>
    addCore4 (a.cores.getD i default)
      (if neg && i == 0 then negCore4 (b.cores.getD i default)
       else b.cores.getD i default)
      (a.R.getD i 0) (a.R.getD (i + 1) 0) (b.R.getD i 0) (b.R.getD (i + 1) 0)
      (i == 0) (i == a.N.length - 1))

/-- One core of the scalar branch of `__add__` / `__sub__` (tensor case):
the self core padded by one extra rank slot, plus the padded rank-1
constant core `tn.ones([1,1,1]) * v` (its mode dimension broadcasts
against `N[i]`). -/
def addScalarCore3 (c : Core3) (sR1 sR2 : ℕ) (v : ℚ) (first last : Bool) :
    Core3 where
  r1 := c.r1 + (if first then 0 else 1)
  n := c.n
  r2 := c.r2 + (if last then 0 else 1)
  entry := fun a j b =>
    (if a < c.r1 ∧ b < c.r2 then c.entry a j b else 0) +
    (if a = (if first then 0 else sR1) ∧ b = (if last then 0 else sR2)
     then v else 0)

def addScalarCore4 (c : Core4) (sR1 sR2 : ℕ) (v : ℚ) (first last : Bool) :
    Core4 where
  r1 := c.r1 + (if first then 0 else 1)
  m := c.m
  n := c.n
  r2 := c.r2 + (if last then 0 else 1)
  entry := fun a i j b =>
    (if a < c.r1 ∧ b < c.r2 then c.entry a i j b else 0) +
    (if a = (if first then 0 else sR1) ∧ b = (if last then 0 else sR2)
     then v else 0)

def buildAddScalar3 (x : TTtens) (s : ℚ) : List Core3 :=
  (List.range x.N.length).map fun i =>
    addScalarCore3 (x.cores.getD i default) (x.R.getD i 0) (x.R.getD (i + 1) 0)
      (if i = 0 then s else 1) (i == 0) (i == x.N.length - 1)

def buildAddScalar4 (x : TTmat) (s : ℚ) : List Core4 :=
  (List.range x.N.length).map fun i =>
    addScalarCore4 (x.cores.getD i default) (x.R.getD i 0) (x.R.getD (i + 1) 0)
      (if i = 0 then s else 1) (i == 0) (i == x.N.length - 1)

/-- `TT.__add__` / `__sub__` between two TT tensors.  NOTE: the source's
shape check compares `self.N` with itself (`if self.N != self.N`), so it
can never fire — the vacuous comparison is kept verbatim.  Reading past
the end of a core or rank list is a Python `IndexError`. -/
def ttAddTens (a b : TTtens) (neg : Bool) : Except PyError TTtens :=
  if a.N ≠ a.N then .error .ShapeMismatch
  else if a.cores.length < a.N.length ∨ b.cores.length < a.N.length ∨
      a.R.length < a.N.length + 1 ∨ b.R.length < a.N.length + 1 then
    .error .IndexError
  else
    match buildAdd3 a b neg with
    | .error e => .error e
    | .ok cs => fromCores3 cs

/-- `TT.__add__` / `__sub__` between two TT matrices; the source's check
`if self.M != self.M or self.N != self.N` is likewise vacuous. -/
def ttAddMat (a b : TTmat) (neg : Bool) : Except PyError TTmat :=
  if a.M ≠ a.M ∨ a.N ≠ a.N then .error .ShapeMismatch
  else if a.cores.length < a.N.length ∨ b.cores.length < a.N.length ∨
      a.R.length < a.N.length + 1 ∨ b.R.length < a.N.length + 1 then
    .error .IndexError
  else
    match buildAdd4 a b neg with
    | .error e => .error e
    | .ok cs => fromCores4 cs

/-- Scalar branch of `__add__` / `__sub__` (value `s` is the scalar for
addition, the negated scalar for subtraction). -/
def ttAddScalar (x : TTObj) (s : ℚ) : Except PyError TTObj :=
  match x with
  | .tens a =>
    if a.cores.length < a.N.length ∨ a.R.length < a.N.length + 1 then
      .error .IndexError
    else (fromCores3 (buildAddScalar3 a s)).map .tens
  | .mat a =>
    if a.cores.length < a.N.length ∨ a.R.length < a.N.length + 1 then
      .error .IndexError
    else (fromCores4 (buildAddScalar4 a s)).map .mat

/-- `TT.__add__`: scalar branch, TT branch (TT+TT, TTM+TTM, mixed kinds
are `IncompatibleTypes`), and — for any other operand — the source
constructs `InvalidArguments(...)` WITHOUT raising it, after which
`return result` reads the never-assigned local `result`: the call fails
with Python's UnboundLocalError, not `InvalidArguments`. -/
def ttAdd (x : TTObj) (o : AddOperand) : Except PyError TTObj :=
  match o with
  | .scalar s => ttAddScalar x s
  | .ttobj y =>
    match x, y with
    | .mat a, .mat b => (ttAddMat a b false).map .mat
    | .tens a, .tens b => (ttAddTens a b false).map .tens
    | _, _ => .error .IncompatibleTypes
  | .other => .error .UnboundLocal

/-- `TT.__sub__`: like `__add__` with the second operand negated at the
first core; the else-branch has the same missing `raise`. -/
def ttSub (x : TTObj) (o : AddOperand) : Except PyError TTObj :=
  match o with
  | .scalar s => ttAddScalar x (-s)
  | .ttobj y =>
    match x, y with
    | .mat a, .mat b => (ttAddMat a b true).map .mat
    | .tens a, .tens b => (ttAddTens a b true).map .tens
    | _, _ => .error .IncompatibleTypes
  | .other => .error .UnboundLocal

def isShapeMismatch : Except PyError TTObj → Bool
  | .error .ShapeMismatch => true
  | _ => false

def isInvalidArguments : Except PyError TTObj → Bool
  | .error .InvalidArguments => true
  | _ => false

theorem collectE_error {α : Type} (l : List (Except PyError α)) (e : PyError)
    (h : collectE l = .error e)
    (hall : ∀ r ∈ l, ∀ e', r = .error e' → e' = .BackendError) :
    e = .BackendError := by
  induction l with
  | nil => simp [collectE] at h
  | cons r rest ih =>
    rcases r with e' | c
    · simp only [collectE, Except.error.injEq] at h
      subst h
      exact hall _ (List.mem_cons_self _ _) _ rfl
    · simp only [collectE] at h
      rcases hr : collectE rest with e'' | cs
      · rw [hr] at h
        simp only [Except.map, Except.error.injEq] at h
        subst h
        exact ih hr fun r hrm => hall r (List.mem_cons_of_mem _ hrm)
      · rw [hr] at h
        simp [Except.map] at h

theorem addCore3_error (c d : Core3) (sR1 sR2 oR1 oR2 : ℕ)
    (first last : Bool) (e : PyError)
    (h : addCore3 c d sR1 sR2 oR1 oR2 first last = .error e) :
    e = .BackendError := by
  unfold addCore3 at h
  by_cases hc : c.r1 + (if first then 0 else oR1) =
      (if first then 0 else sR1) + d.r1 ∧ c.n = d.n ∧
      c.r2 + (if last then 0 else oR2) = (if last then 0 else sR2) + d.r2
  · rw [if_pos hc] at h
    exact absurd h (by simp)
  · rw [if_neg hc] at h
    simpa using h.symm

theorem addCore4_error (c d : Core4) (sR1 sR2 oR1 oR2 : ℕ)
    (first last : Bool) (e : PyError)
    (h : addCore4 c d sR1 sR2 oR1 oR2 first last = .error e) :
    e = .BackendError := by
  unfold addCore4 at h
  by_cases hc : c.r1 + (if first then 0 else oR1) =
      (if first then 0 else sR1) + d.r1 ∧ c.m = d.m ∧ c.n = d.n ∧
      c.r2 + (if last then 0 else oR2) = (if last then 0 else sR2) + d.r2
  · rw [if_pos hc] at h
    exact absurd h (by simp)
  · rw [if_neg hc] at h
    simpa using h.symm

theorem buildAdd3_error (a b : TTtens) (neg : Bool) (e : PyError)
    (h : buildAdd3 a b neg = .error e) : e = .BackendError := by
  refine collectE_error _ _ h ?_
  intro r hr e' hre
  simp only [List.mem_map, List.mem_range] at hr
  obtain ⟨i, -, rfl⟩ := hr
  exact addCore3_error _ _ _ _ _ _ _ _ _ hre

theorem buildAdd4_error (a b : TTmat) (neg : Bool) (e : PyError)
    (h : buildAdd4 a b neg = .error e) : e = .BackendError := by
  refine collectE_error _ _ h ?_
  intro r hr e' hre
  simp only [List.mem_map, List.mem_range] at hr
  obtain ⟨i, -, rfl⟩ := hr
  exact addCore4_error _ _ _ _ _ _ _ _ _ hre

theorem isShapeMismatch_tens_map (r : Except PyError TTtens)
    (h : ∀ e, r = .error e → e ≠ .ShapeMismatch) :
    isShapeMismatch (r.map .tens) = false := by
  rcases r with e | t
  · have := h e rfl
    cases e <;> first | rfl | exact absurd rfl this
  · rfl

theorem isShapeMismatch_mat_map (r : Except PyError TTmat)
    (h : ∀ e, r = .error e → e ≠ .ShapeMismatch) :
    isShapeMismatch (r.map .mat) = false := by
  rcases r with e | t
  · have := h e rfl
    cases e <;> first | rfl | exact absurd rfl this
  · rfl

theorem ttAddTens_no_SM (a b : TTtens) (neg : Bool) (e : PyError)
    (h : ttAddTens a b neg = .error e) : e ≠ .ShapeMismatch := by
  unfold ttAddTens at h
  rw [if_neg (by simp)] at h
  split_ifs at h with h1
  · simp only [Except.error.injEq] at h
    subst h
    simp
  · rcases hb : buildAdd3 a b neg with e' | cs
    · rw [hb] at h
      simp only [Except.error.injEq] at h
      subst h
      rw [buildAdd3_error a b neg e' hb]
      simp
    · rw [hb] at h
      have := fromCores3_error_sub cs e h
      rcases this with rfl | rfl | rfl <;> simp

theorem ttAddMat_no_SM (a b : TTmat) (neg : Bool) (e : PyError)
    (h : ttAddMat a b neg = .error e) : e ≠ .ShapeMismatch := by
  unfold ttAddMat at h
  rw [if_neg (by simp)] at h
  split_ifs at h with h1
  · simp only [Except.error.injEq] at h
    subst h
    simp
  · rcases hb : buildAdd4 a b neg with e' | cs
    · rw [hb] at h
      simp only [Except.error.injEq] at h
      subst h
      rw [buildAdd4_error a b neg e' hb]
      simp
    · rw [hb] at h
      have := fromCores4_error_sub cs e h
      rcases this with rfl | rfl | rfl <;> simp

theorem ttAddScalar_no_SM (x : TTObj) (s : ℚ) :
    isShapeMismatch (ttAddScalar x s) = false := by
  rcases x with a | a
  · simp only [ttAddScalar]
    split_ifs with h1
    · rfl
    · refine isShapeMismatch_tens_map _ ?_
      intro e he
      have := fromCores3_error_sub _ _ he
      rcases this with rfl | rfl | rfl <;> simp
  · simp only [ttAddScalar]
    split_ifs with h1
    · rfl
    · refine isShapeMismatch_mat_map _ ?_
      intro e he
      have := fromCores4_error_sub _ _ he
      rcases this with rfl | rfl | rfl <;> simp

/-- A concrete TT tensor with one mode of size 3 (mode list different
from `tensA`'s `[3] ≠ [2]`). -/
def tensC : TTtens := ⟨[⟨1, 3, 1, fun _ i _ => (i : ℚ) + 1⟩], [3], [1, 1]⟩

/-- C1: the addition and subtraction operators never raise `ShapeMismatch`
— the source compares `self.N` (and `self.M`) with itself, so the check is
vacuous; on the concrete mode-size mismatch `[2]` vs `[3]` the call
instead fails inside the backend core addition (torch RuntimeError). -/
theorem claim_C1 :
    (∀ (x : TTObj) (o : AddOperand), isShapeMismatch (ttAdd x o) = false) ∧
    (∀ (x : TTObj) (o : AddOperand), isShapeMismatch (ttSub x o) = false) ∧
    ttAdd (.tens tensA) (.ttobj (.tens tensC)) = .error .BackendError ∧
    ttSub (.tens tensA) (.ttobj (.tens tensC)) = .error .BackendError := by
  refine ⟨?_, ?_, rfl, rfl⟩
  · intro x o
    rcases o with s | y | _
    · exact ttAddScalar_no_SM x s
    · rcases x with a | a <;> rcases y with b | b
      · refine isShapeMismatch_tens_map _ fun e he => ttAddTens_no_SM a b false e he
      · rfl
      · rfl
      · refine isShapeMismatch_mat_map _ fun e he => ttAddMat_no_SM a b false e he
    · rfl
  · intro x o
    rcases o with s | y | _
    · exact ttAddScalar_no_SM x (-s)
    · rcases x with a | a <;> rcases y with b | b
      · refine isShapeMismatch_tens_map _ fun e he => ttAddTens_no_SM a b true e he
      · rfl
      · rfl
      · refine isShapeMismatch_mat_map _ fun e he => ttAddMat_no_SM a b true e he
    · rfl

/-- C8: on an operand that is neither a scalar, a one-element tensor nor a
TT instance, `__add__` and `__sub__` fail with UnboundLocalError — the
source builds the `InvalidArguments` exception without `raise`, then
`return result` reads an unassigned local — so the documented
`InvalidArguments` is never raised. -/
theorem claim_C8 :
    (∀ x : TTObj, ttAdd x .other = .error .UnboundLocal) ∧
    (∀ x : TTObj, ttSub x .other = .error .UnboundLocal) ∧
    (∀ x : TTObj, isInvalidArguments (ttAdd x .other) = false) ∧
    (∀ x : TTObj, isInvalidArguments (ttSub x .other) = false) :=
  ⟨fun _ => rfl, fun _ => rfl, fun _ => rfl, fun _ => rfl⟩

theorem getD_eq_getElem' {α : Type} (l : List α) (k : ℕ) (d : α)
    (hk : k < l.length) : l.getD k d = l[k] := by
  rw [List.getD_eq_getElem?_getD, List.getElem?_eq_getElem hk, Option.getD_some]

/-- Under the structural invariants the stored rank list is exactly `1`
followed by the trailing ranks of the cores. -/
theorem structOK3_R (x : TTtens) (h : structOK3 x) :
    x.R = 1 :: x.cores.map (·.r2) := by
  obtain ⟨hlen, hhead, -, hclen, hadj⟩ := h
  have hRlen : x.R.length = x.cores.length + 1 := by omega
  apply List.ext_getElem
  · simp [hRlen]
  · intro i hi1 hi2
    cases i with
    | zero =>
      have hne : x.R ≠ [] := by
        intro hh; rw [hh] at hRlen; simp at hRlen
      have h0 : x.R.getD 0 0 = 1 := by
        rw [getD_zero_headD _ hne]; exact hhead
      rw [← getD_eq_getElem' x.R 0 0 hi1, h0]
      simp
    | succ j =>
      have hj : j < x.cores.length := by
        simp only [List.length_cons, List.length_map] at hi2
        omega
      have hadj2 := (hadj j hj).2
      rw [← getD_eq_getElem' x.R (j + 1) 0 hi1, ← hadj2,
        getD_eq_getElem' x.cores j default hj]
      simp

theorem structOK4_R (x : TTmat) (h : structOK4 x) :
    x.R = 1 :: x.cores.map (·.r2) := by
  obtain ⟨hlen, hhead, -, hclen, hadj⟩ := h
  have hRlen : x.R.length = x.cores.length + 1 := by omega
  apply List.ext_getElem
  · simp [hRlen]
  · intro i hi1 hi2
    cases i with
    | zero =>
      have hne : x.R ≠ [] := by
        intro hh; rw [hh] at hRlen; simp at hRlen
      have h0 : x.R.getD 0 0 = 1 := by
        rw [getD_zero_headD _ hne]; exact hhead
      rw [← getD_eq_getElem' x.R 0 0 hi1, h0]
      simp
    | succ j =>
      have hj : j < x.cores.length := by
        simp only [List.length_cons, List.length_map] at hi2
        omega
      have hadj2 := (hadj j hj).2
      rw [← getD_eq_getElem' x.R (j + 1) 0 hi1, ← hadj2,
        getD_eq_getElem' x.cores j default hj]
      simp

/-- TT-matrix times TT-tensor core
(`tn.einsum('ijkl,mkp->imjlp', c, d)` reshaped to
`(c.r1*d.r1, c.m, c.r2*d.r2)`): contraction over the column mode of the
matrix core, rank index pairs encoded row-major. -/
def matmulCore43 (c : Core4) (d : Core3) : Core3 where
  r1 := c.r1 * d.r1
  n := c.m
  r2 := c.r2 * d.r2
  entry := fun a j b =>
    ∑ k in Finset.range c.n,
      c.entry (a / d.r1) j k (b / d.r2) * d.entry (a % d.r1) k (b % d.r2)

/-- TT-matrix times TT-matrix core
(`tn.einsum('ijkl,mknp->imjnlp', c, d)` reshaped). -/
def matmulCore44 (c d : Core4) : Core4 where
  r1 := c.r1 * d.r1
  m := c.m
  n := d.n
  r2 := c.r2 * d.r2
  entry := fun a j q b =>
    ∑ k in Finset.range c.n,
      c.entry (a / d.r1) j k (b / d.r2) * d.entry (a % d.r1) k q (b % d.r2)

/-- TT-tensor times TT-matrix core
(`tn.einsum('mkp,ikjl->imjlp', c, d)` reshaped; here the OTHER operand's
rank index is the high part of the combined index). -/
def matmulCore34 (c : Core3) (d : Core4) : Core3 where
  r1 := c.r1 * d.r1
  n := d.n
  r2 := c.r2 * d.r2
  entry := fun a j b =>
    ∑ k in Finset.range d.m,
      c.entry (a % c.r1) k (b % c.r2) * d.entry (a / c.r1) k j (b / c.r2)

def modesEq43 : List Core4 → List Core3 → Bool
  | c :: cs, d :: ds => (c.n == d.n) && modesEq43 cs ds
  | _, _ => true

def modesEq44 : List Core4 → List Core4 → Bool
  | c :: cs, d :: ds => (c.n == d.m) && modesEq44 cs ds
  | _, _ => true

def modesEq34 : List Core3 → List Core4 → Bool
  | c :: cs, d :: ds => (c.n == d.m) && modesEq34 cs ds
  | _, _ => true

/-- `TT.__matmul__` between TT objects: matrix@tensor, matrix@matrix and
tensor@matrix contract the shared mode per core with ranks combined by
Kronecker product; tensor@tensor is `InvalidArguments` ("Wrong
arguments").  The fourth source path — a TT-matrix applied to a plain
dense torch tensor — returns a dense tensor, not a TT object, and is
outside this model. -/
def ttMatmul (x y : TTObj) : Except PyError TTObj :=
  match x, y with
  | .mat a, .tens b =>
    if a.N ≠ b.N then .error .ShapeMismatch
    else if b.cores.length < a.cores.length then .error .IndexError
    else if modesEq43 a.cores b.cores then
      (fromCores3 (List.zipWith matmulCore43 a.cores b.cores)).map .tens
    else .error .BackendError
  | .mat a, .mat b =>
    if a.N ≠ b.M then .error .ShapeMismatch
    else if b.cores.length < a.cores.length then .error .IndexError
    else if modesEq44 a.cores b.cores then
      (fromCores4 (List.zipWith matmulCore44 a.cores b.cores)).map .mat
    else .error .BackendError
  | .tens a, .mat b =>
    if a.N ≠ b.M then .error .ShapeMismatch
    else if b.cores.length < a.cores.length then .error .IndexError
    else if modesEq34 a.cores b.cores then
      (fromCores3 (List.zipWith matmulCore34 a.cores b.cores)).map .tens
    else .error .BackendError
  | .tens _, .tens _ => .error .InvalidArguments

/-- An identity-matrix TT core:
`tn.unsqueeze(tn.unsqueeze(tn.eye(s), 0), 3)`. -/
def eyeCore (s : ℕ) : Core4 :=
  ⟨1, s, s, 1, fun p i j q => if p = 0 ∧ q = 0 ∧ i = j then 1 else 0⟩

/-- The `eye` factory: one identity core per mode, handed to `TT(cores)`.
All its ranks are 1. -/
def eye (shape : List ℕ) : Except PyError TTmat :=
  fromCores4 (shape.map eyeCore)

/-- Contracting the identity TT-matrix cores against a tensor core chain
is the identity on the chain's evaluation, for in-range mode indices. -/
theorem ttEvalAux_eye_matmul :
    ∀ (ns : List ℕ) (xs : List Core3) (idx : List ℕ) (a r : ℕ),
      xs.length = ns.length → idx.length = ns.length →
      List.Forall₂ (· < ·) idx ns →
      chainB xs r = true → a < r →
      ttEvalAux (List.zipWith matmulCore43 (ns.map eyeCore) xs) idx a 0 =
        ttEvalAux xs idx a 0 := by
  intro ns
  induction ns with
  | nil =>
    intro xs idx a r h1 h2 _ _ _
    have hxs : xs = [] := List.length_eq_zero.mp h1
    have hidx : idx = [] := List.length_eq_zero.mp h2
    subst hxs; subst hidx
    rfl
  | cons s ns' ih =>
    intro xs idx a r h1 h2 hforall hchain ha
    rcases xs with _ | ⟨c, cs'⟩
    · simp at h1
    rcases idx with _ | ⟨j, js⟩
    · simp at h2
    rcases hforall with - | ⟨hj, hforall'⟩
    simp only [chainB, Bool.and_eq_true, beq_iff_eq] at hchain
    obtain ⟨hcr, hchain'⟩ := hchain
    simp only [List.map_cons, List.zipWith_cons_cons, ttEvalAux]
    rw [show (matmulCore43 (eyeCore s) c).r2 = 1 * c.r2 from rfl, Nat.one_mul]
    refine Finset.sum_congr rfl fun k hk => ?_
    have hk' : k < c.r2 := Finset.mem_range.mp hk
    have ha' : a < c.r1 := hcr ▸ ha
    have hent : (matmulCore43 (eyeCore s) c).entry a j k = c.entry a j k := by
      show (∑ t in Finset.range (eyeCore s).n,
        (eyeCore s).entry (a / c.r1) j t (k / c.r2) *
          c.entry (a % c.r1) t (k % c.r2)) = _
      rw [Nat.div_eq_of_lt ha', Nat.mod_eq_of_lt ha',
        Nat.div_eq_of_lt hk', Nat.mod_eq_of_lt hk']
      have : ∀ t, (eyeCore s).entry 0 j t 0 = if j = t then 1 else 0 := by
        intro t
        simp [eyeCore]
      rw [show (eyeCore s).n = s from rfl]
      have hterm : ∀ u, (eyeCore s).entry 0 j u 0 * c.entry a u k =
          if j = u then c.entry a u k else 0 := by
        intro u
        rw [this u]
        by_cases hju : j = u
        · simp [hju]
        · simp [hju]
      rw [Finset.sum_congr rfl fun u _ => hterm u]
      rw [Finset.sum_ite_eq (Finset.range s) j fun u => c.entry a u k]
      simp [Finset.mem_range.mpr hj]
    rw [hent, ih cs' js k c.r2 (by simpa using h1) (by simpa using h2)
      hforall' hchain' hk']

theorem eye_zip_r2 :
    ∀ (ns : List ℕ) (cs : List Core3), ns.length = cs.length →
      (List.zipWith matmulCore43 (ns.map eyeCore) cs).map (·.r2) =
        cs.map (·.r2) := by
  intro ns
  induction ns with
  | nil =>
    intro cs h
    have : cs = [] := List.length_eq_zero.mp h.symm
    subst this
    rfl
  | cons s ns' ih =>
    intro cs h
    rcases cs with _ | ⟨c, cs'⟩
    · simp at h
    simp only [List.map_cons, List.zipWith_cons_cons]
    rw [ih cs' (by simpa using h)]
    simp [matmulCore43, eyeCore]

/-- C6: applying the identity TT-matrix `eye(N)` to a TT tensor is a
no-op: `eye(N)` has all ranks 1, the product keeps `x`'s ranks, and the
dense forms agree at every in-range index. -/
theorem claim_C6 (x : TTtens) (e : TTmat) (t : TTtens)
    (hx : structOK3 x)
    (he : eye x.N = .ok e)
    (ht : ttMatmul (.mat e) (.tens x) = .ok (.tens t)) :
    (∀ r ∈ e.R, r = 1) ∧ t.R = x.R ∧
      ∀ idx : List ℕ, idx.length = x.N.length →
        List.Forall₂ (· < ·) idx x.N → ttFull t idx = ttFull x idx := by
  obtain ⟨hene, -, -, -, rfl⟩ := fromCores4_ok_inv _ _ he
  have hfc : fromCores3
      (List.zipWith matmulCore43 (x.N.map eyeCore) x.cores) = .ok t := by
    simp only [ttMatmul] at ht
    split_ifs at ht with h1 h2 h3
    rcases hfc' : fromCores3
        (List.zipWith matmulCore43 (x.N.map eyeCore) x.cores) with e' | t'
    · rw [hfc'] at ht
      simp [Except.map] at ht
    · rw [hfc'] at ht
      simp only [Except.map, Except.ok.injEq, TTObj.tens.injEq] at ht
      subst ht
      rfl
  obtain ⟨-, -, -, -, rfl⟩ := fromCores3_ok_inv _ _ hfc
  refine ⟨?_, ?_, ?_⟩
  · intro r hr
    rcases List.mem_cons.mp hr with rfl | hr2
    · rfl
    · rw [List.map_map] at hr2
      obtain ⟨s, -, hs⟩ := List.mem_map.mp hr2
      exact hs.symm
  · show (1 :: (List.zipWith matmulCore43 (x.N.map eyeCore)
        x.cores).map (·.r2)) = x.R
    rw [eye_zip_r2 x.N x.cores hx.2.2.2.1.symm]
    exact (structOK3_R x hx).symm
  · intro idx hlen hforall
    show ttEvalAux (List.zipWith matmulCore43 (x.N.map eyeCore) x.cores)
      idx 0 0 = ttEvalAux x.cores idx 0 0
    exact ttEvalAux_eye_matmul x.N x.cores idx 0 1 hx.2.2.2.1 hlen hforall
      (structOK3_chain x hx).1 (by omega)

/-- The identity TT-matrix on `tensA`'s mode list. -/
def eyeT2 : TTmat :=
  match eye tensA.N with
  | .ok e => e
  | .error _ => default

/-- The computed product `eye([2]) @ tensA`. -/
def matET : TTtens :=
  match ttMatmul (.mat eyeT2) (.tens tensA) with
  | .ok (.tens t) => t
  | _ => default

theorem claim_C6_witness :
    (structOK3 tensA ∧ eye tensA.N = .ok eyeT2 ∧
      ttMatmul (.mat eyeT2) (.tens tensA) = .ok (.tens matET)) ∧
    matET.R = tensA.R ∧ ttFull matET [1] = ttFull tensA [1] := by
  refine ⟨⟨by decide, rfl, rfl⟩, ?_, ?_⟩
  · exact (claim_C6 tensA eyeT2 matET (by decide) rfl rfl).2.1
  · exact (claim_C6 tensA eyeT2 matET (by decide) rfl rfl).2.2 [1] rfl
      (by decide)

/-- `torchtt.kron` on two TT objects: concatenate the two core lists
verbatim and construct (`TT(cores_new)`); mixed kinds are
`IncompatibleTypes`.  The `None`-operand convenience paths (which clone
the other argument) are not modelled. -/
def kron (x y : TTObj) : Except PyError TTObj :=
  match x, y with
  | .tens a, .tens b => (fromCores3 (a.cores ++ b.cores)).map .tens
  | .mat a, .mat b => (fromCores4 (a.cores ++ b.cores)).map .mat
  | _, _ => .error .IncompatibleTypes

/-- The running rank after scanning a core list, starting from `r`. -/
def chainEnd : ℕ → List Core3 → ℕ
  | r, [] => r
  | _, c :: cs => chainEnd c.r2 cs

theorem chainEnd_eq_trail3 :
    ∀ (cs : List Core3) (r : ℕ), cs ≠ [] → chainEnd r cs = trail3 cs := by
  intro cs
  induction cs with
  | nil => intro r h; simp at h
  | cons c rest ih =>
    intro r h
    rcases rest with _ | ⟨d, rest'⟩
    · rfl
    · exact ih c.r2 (by simp)

theorem chainB_append_eq :
    ∀ (cs ds : List Core3) (r : ℕ),
      chainB (cs ++ ds) r = (chainB cs r && chainB ds (chainEnd r cs)) := by
  intro cs
  induction cs with
  | nil => intro ds r; simp [chainB, chainEnd]
  | cons c rest ih =>
    intro ds r
    simp only [List.cons_append, chainB, chainEnd, List.append_eq, ih,
      Bool.and_assoc]

theorem trail3_append (cs ds : List Core3) (h : ds ≠ []) :
    trail3 (cs ++ ds) = trail3 ds := by
  induction cs with
  | nil => rfl
  | cons c rest ih =>
    have hne : rest ++ ds ≠ [] := by
      simp only [ne_eq, List.append_eq_nil]
      rintro ⟨-, rfl⟩
      exact h rfl
    rcases hcd : rest ++ ds with _ | ⟨e, l⟩
    · exact absurd hcd hne
    · rw [List.cons_append, hcd,
        show trail3 (c :: e :: l) = trail3 (e :: l) from rfl, ← hcd, ih]

/-- The TT contraction of a concatenated core chain splits into the
product of the two contractions when the shared boundary rank is 1. -/
theorem ttEvalAux_append :
    ∀ (cs ds : List Core3) (is1 is2 : List ℕ) (a r : ℕ),
      is1.length = cs.length → chainB cs r = true → chainEnd r cs = 1 →
      a < r →
      ttEvalAux (cs ++ ds) (is1 ++ is2) a 0 =
        ttEvalAux cs is1 a 0 * ttEvalAux ds is2 0 0 := by
  intro cs
  induction cs with
  | nil =>
    intro ds is1 is2 a r h1 _ hend ha
    have h2 : is1 = [] := List.length_eq_zero.mp h1
    subst h2
    have h3 : r = 1 := hend
    subst h3
    have h4 : a = 0 := by omega
    subst h4
    simp [ttEvalAux]
  | cons c cs' ih =>
    intro ds is1 is2 a r h1 hchain hend ha
    rcases is1 with _ | ⟨j, js⟩
    · simp at h1
    simp only [chainB, Bool.and_eq_true, beq_iff_eq] at hchain
    obtain ⟨-, hchain'⟩ := hchain
    simp only [List.cons_append, ttEvalAux, List.append_eq]
    have hstep : ∀ k ∈ Finset.range c.r2,
        c.entry a j k * ttEvalAux (cs' ++ ds) (js ++ is2) k 0 =
        c.entry a j k * (ttEvalAux cs' js k 0 * ttEvalAux ds is2 0 0) := by
      intro k hk
      rw [ih ds js is2 k c.r2 (by simpa using h1) hchain' hend
        (Finset.mem_range.mp hk)]
    rw [Finset.sum_congr rfl hstep, Finset.sum_mul]
    exact Finset.sum_congr rfl fun k _ => by ring

/-- C5: the Kronecker product concatenates the mode lists and the rank
lists (with the shared boundary 1) and its dense form is the outer
product of the operands' dense forms. -/
theorem claim_C5 (a b : TTtens)
    (ha : structOK3 a) (hb : structOK3 b)
    (haN : a.N = a.cores.map (·.n)) (hbN : b.N = b.cores.map (·.n))
    (hane : a.cores ≠ []) (hbne : b.cores ≠ []) :
    kron (.tens a) (.tens b) =
      .ok (.tens ⟨a.cores ++ b.cores, a.N ++ b.N, a.R ++ b.R.drop 1⟩) ∧
    ∀ i1 i2 : List ℕ, i1.length = a.N.length →
      ttFull ⟨a.cores ++ b.cores, a.N ++ b.N, a.R ++ b.R.drop 1⟩ (i1 ++ i2) =
        ttFull a i1 * ttFull b i2 := by
  have hRa := structOK3_R a ha
  have hRb := structOK3_R b hb
  have hchA := structOK3_chain a ha
  have hchB := structOK3_chain b hb
  have hheadA : headR3 (a.cores ++ b.cores) = 1 := by
    rcases hc : a.cores with _ | ⟨c, rest⟩
    · exact absurd hc hane
    · have h1 := hchA.1
      rw [hc] at h1
      simp only [chainB, Bool.and_eq_true, beq_iff_eq] at h1
      simpa [headR3] using h1.1
  have hchain : chainB (a.cores ++ b.cores) 1 = true := by
    rw [chainB_append_eq, hchA.1, chainEnd_eq_trail3 _ _ hane, hchA.2, hchB.1]
    rfl
  have htrail : trail3 (a.cores ++ b.cores) = 1 := by
    rw [trail3_append _ _ hbne]
    exact hchB.2
  have hcat : a.cores ++ b.cores ≠ [] := by
    intro hh
    exact hane (List.append_eq_nil.mp hh).1
  have hfc := fromCores3_ok_of (a.cores ++ b.cores) hcat hchain hheadA htrail
  have hpayload : (⟨a.cores ++ b.cores, (a.cores ++ b.cores).map (·.n),
      1 :: (a.cores ++ b.cores).map (·.r2)⟩ : TTtens) =
      ⟨a.cores ++ b.cores, a.N ++ b.N, a.R ++ b.R.drop 1⟩ := by
    simp only [TTtens.mk.injEq]
    refine ⟨trivial, ?_, ?_⟩
    · rw [List.map_append, ← haN, ← hbN]
    · rw [List.map_append, hRa, hRb]
      simp
  constructor
  · show (fromCores3 (a.cores ++ b.cores)).map TTObj.tens = _
    rw [hfc, hpayload]
    rfl
  · intro i1 i2 hlen
    show ttEvalAux (a.cores ++ b.cores) (i1 ++ i2) 0 0 =
      ttEvalAux a.cores i1 0 0 * ttEvalAux b.cores i2 0 0
    refine ttEvalAux_append a.cores b.cores i1 i2 0 1 ?_ hchA.1 ?_ (by omega)
    · rw [hlen, ha.2.2.2.1]
    · rw [chainEnd_eq_trail3 _ _ hane]
      exact hchA.2

/-- The computed Kronecker product `tensA ** tensC`. -/
def tensAC : TTtens :=
  match kron (.tens tensA) (.tens tensC) with
  | .ok (.tens t) => t
  | _ => default

theorem claim_C5_witness :
    (structOK3 tensA ∧ structOK3 tensC ∧
      tensA.N = tensA.cores.map (·.n) ∧ tensC.N = tensC.cores.map (·.n) ∧
      tensA.cores ≠ [] ∧ tensC.cores ≠ []) ∧
    kron (.tens tensA) (.tens tensC) =
      .ok (.tens ⟨tensA.cores ++ tensC.cores, tensA.N ++ tensC.N,
        tensA.R ++ tensC.R.drop 1⟩) ∧
    ttFull ⟨tensA.cores ++ tensC.cores, tensA.N ++ tensC.N,
        tensA.R ++ tensC.R.drop 1⟩ ([1] ++ [2]) =
      ttFull tensA [1] * ttFull tensC [2] := by
  refine ⟨⟨by decide, by decide, rfl, rfl, by simp [tensA],
    by simp [tensC]⟩, ?_, ?_⟩
  · exact (claim_C5 tensA tensC (by decide) (by decide) rfl rfl
      (by simp [tensA]) (by simp [tensC])).1
  · exact (claim_C5 tensA tensC (by decide) (by decide) rfl rfl
      (by simp [tensA]) (by simp [tensC])).2 [1] [2] rfl


/-! ### `__truediv__` by a scalar and the aliasing of the first core (C7) -/

/-- In the scalar branch of `__truediv__` the source does
`cores_new = self.cores.copy()` — a SHALLOW copy: the list object is new
but the core tensors are shared — and then `cores_new[0] /= other`, an
in-place division of the shared first core.  `divFirstCore` is the core
list both the copy and the operand hold after that statement. -/
def divFirstCore (cs : List Core3) (s : ℚ) : List Core3 :=
  match cs with
  | [] => []
  | c :: rest => ⟨c.r1, c.n, c.r2, fun a i b => c.entry a i b / s⟩ :: rest

/-- `TT.__truediv__` with an `int`/`float`/torch-scalar operand.  The
first component is the returned object `TT(cores_new)`; the second is the
state of the operand after the call: its attribute lists are untouched,
but its first core was divided in place through the shared reference. -/
def ttDivScalar (x : TTtens) (s : ℚ) : Except PyError TTtens × TTtens :=
  (fromCores3 (divFirstCore x.cores s), ⟨divFirstCore x.cores s, x.N, x.R⟩)

/-- An all-ones TT tensor with a single mode of size 2. -/
def tensD : TTtens := ⟨[⟨1, 2, 1, fun _ _ _ => 1⟩], [2], [1, 1]⟩

/-- C7: the claim says `x / s` returns a new TT object and leaves the
operand unchanged.  The second part is false: `self.cores.copy()` shares
the core tensors, so `cores_new[0] /= other` divides the first core of the
operand itself.  Refutation on the all-ones tensor `tensD` and the nonzero
scalar `2`: the division succeeds and returns a TT object, yet afterwards
the operand holds the entry `1/2` where it held `1` before the call. -/
theorem claim_C7 :
    (2 : ℚ) ≠ 0 ∧
    (ttDivScalar tensD 2).1 =
      .ok ⟨divFirstCore tensD.cores 2, [2], [1, 1]⟩ ∧
    (tensD.cores.headD default).entry 0 0 0 = 1 ∧
    ((ttDivScalar tensD 2).2.cores.headD default).entry 0 0 0 = 1 / 2 := by
  refine ⟨by norm_num, rfl, rfl, ?_⟩
  norm_num [ttDivScalar, divFirstCore, tensD]

/-! ### The attributes `__init__` defines, and `is_cuda` (C9) -/

/-- The attribute names relevant to `is_cuda`: the ones the constructor
can assign, plus the name `core` that `is_cuda` reads. -/
inductive Attr : Type
  | cores
  | core
  | attrM
  | attrN
  | attrR
  | is_ttm
  | shape
  deriving DecidableEq

/-- The branches of `TT.__init__`: `source is None`; a list of 3d cores; a
list of 4d cores; a dense torch tensor or numpy array (with or without a
`shape` argument); the dense TT-matrix variant (shape given as tuples). -/
inductive InitBranch : Type
  | fromNone
  | list3
  | list4
  | dense
  | denseTTM

/-- The attributes each `__init__` branch assigns, in assignment order:
the `None` branch sets `cores`, `M`, `N`, `R`, `is_ttm` (and no `shape`);
the list branches set `cores`, `R`, `N` (plus `M` when every core is 4d),
`is_ttm` and `shape`; the dense branches set `N` (plus `M` in the
TT-matrix variant), `cores`, `R`, `is_ttm` and `shape`.  None of them
assigns `core`. -/
def initAttrs : InitBranch → List Attr
  | .fromNone => [.cores, .attrM, .attrN, .attrR, .is_ttm]
  | .list3 => [.cores, .attrR, .attrN, .is_ttm, .shape]
  | .list4 => [.cores, .attrR, .attrN, .attrM, .is_ttm, .shape]
  | .dense => [.attrN, .cores, .attrR, .is_ttm, .shape]
  | .denseTTM => [.attrM, .attrN, .cores, .attrR, .is_ttm, .shape]

/-- Python attribute lookup: a defined attribute reads fine, any other
name raises `AttributeError`. -/
def getattr (attrs : List Attr) (a : Attr) : Except PyError Unit :=
  if a ∈ attrs then .ok () else .error .AttributeError

/-- `TT.is_cuda`: `return all([c.is_cuda for c in self.core])` — the body
reads the attribute `self.core`.  `flags` stands for the per-core
`is_cuda` flags the comprehension would collect if the lookup succeeded. -/
def is_cuda (attrs : List Attr) (flags : List Bool) : Except PyError Bool :=
  match getattr attrs .core with
  | .ok _ => .ok (flags.all fun b => b)
  | .error e => .error e

/-- C9: `is_cuda` reads `self.core`, but every branch of `__init__` stores
the core list under `self.cores` and no branch (and no other method)
defines `core`; so on every constructor output, whatever devices the
cores live on, `is_cuda()` raises `AttributeError` instead of returning
the documented boolean. -/
theorem claim_C9 :
    ∀ (b : InitBranch) (flags : List Bool),
      Attr.core ∉ initAttrs b ∧
        is_cuda (initAttrs b) flags = .error .AttributeError := by
  intro b flags
  cases b <;> exact ⟨by decide, rfl⟩



/-! ### `reduce_dims`: merging the size-1 modes (used by slicing) -/

/-- `cores_new[-1] = tn.einsum('ijk,kl->ijl', cores_new[-1],
self.cores[i][:,0,:])`: fold a size-1-mode core into the core to its
left. -/
def foldLeft3 (a c : Core3) : Core3 :=
  ⟨a.r1, a.n, c.r2, fun i j l =>
    ∑ k in Finset.range a.r2, a.entry i j k * c.entry k 0 l⟩

/-- `self.cores[i+1] = tn.einsum('ij,jkl->ikl', self.cores[i][:,0,:],
self.cores[i+1])`: fold a size-1-mode core into the core to its right. -/
def foldRight3 (c d : Core3) : Core3 :=
  ⟨c.r1, d.n, d.r2, fun i k l =>
    ∑ j in Finset.range c.r2, c.entry i 0 j * d.entry j k l⟩

/-- The loop of `reduce_dims` on a TT tensor.  `acc` is the reversed
`cores_new`, the second list the cores not yet visited (the loop mutates
`self.cores[i+1]` in place, which the recursion models by rewriting the
head of the remaining list).  A core with mode size 1 is folded to the
left when its leading rank exceeds its trailing rank or it is the last
core (`self.cores[i].shape[0] > self.cores[i].shape[2] or
i == len(self.N)-1`), with the two sub-cases of an empty `cores_new`;
otherwise it is folded to the right.  The fuel argument only forces
structural recursion: every step shortens the remaining list, so
`length + 1` units are never exhausted. -/
def reduceGo3 : ℕ → List Core3 → List Core3 → List Core3
  | 0, acc, cs => acc.reverse ++ cs
  | _ + 1, acc, [] => acc.reverse
  | fuel + 1, acc, c :: rest =>
    if c.n = 1 then
      match rest with
      | [] =>
        match acc with
        | a :: accT => reduceGo3 fuel (foldLeft3 a c :: accT) []
        | [] => reduceGo3 fuel [c] []
      | d :: restT =>
        if c.r2 < c.r1 then
          match acc with
          | a :: accT => reduceGo3 fuel (foldLeft3 a c :: accT) (d :: restT)
          | [] => reduceGo3 fuel [] (foldRight3 c d :: restT)
        else
          reduceGo3 fuel acc (foldRight3 c d :: restT)
    else
      reduceGo3 fuel (c :: acc) rest

/-- `reduce_dims` on a TT tensor: run the loop, then rewrite `self.N`
from the mode sizes and `self.R` as `[1]` followed by the trailing ranks
of the surviving cores.  (The loop runs over `range(len(self.N))`, which
equals the core count on every constructor output.) -/
def reduceDims3 (x : TTtens) : TTtens :=
  let rc := reduceGo3 (x.cores.length + 1) [] x.cores
  ⟨rc, rc.map (·.n), 1 :: rc.map (·.r2)⟩

/-- `tn.einsum('ijok,kl->ijol', ...)`: the rank-4 left fold. -/
def foldLeft4 (a c : Core4) : Core4 :=
  ⟨a.r1, a.m, a.n, c.r2, fun i j o l =>
    ∑ k in Finset.range a.r2, a.entry i j o k * c.entry k 0 0 l⟩

/-- `tn.einsum('ij,jkml->ikml', ...)`: the rank-4 right fold. -/
def foldRight4 (c d : Core4) : Core4 :=
  ⟨c.r1, d.m, d.n, d.r2, fun i k m l =>
    ∑ j in Finset.range c.r2, c.entry i 0 0 j * d.entry j k m l⟩

/-- The loop of `reduce_dims` on a TT matrix: a core is merged away when
both its mode sizes are 1 (`shape[1] == 1 and shape[2] == 1`), with the
same left/right dispatch on `shape[0] > shape[3]`. -/
def reduceGo4 : ℕ → List Core4 → List Core4 → List Core4
  | 0, acc, cs => acc.reverse ++ cs
  | _ + 1, acc, [] => acc.reverse
  | fuel + 1, acc, c :: rest =>
    if c.m = 1 ∧ c.n = 1 then
      match rest with
      | [] =>
        match acc with
        | a :: accT => reduceGo4 fuel (foldLeft4 a c :: accT) []
        | [] => reduceGo4 fuel [c] []
      | d :: restT =>
        if c.r2 < c.r1 then
          match acc with
          | a :: accT => reduceGo4 fuel (foldLeft4 a c :: accT) (d :: restT)
          | [] => reduceGo4 fuel [] (foldRight4 c d :: restT)
        else
          reduceGo4 fuel acc (foldRight4 c d :: restT)
    else
      reduceGo4 fuel (c :: acc) rest

/-- `reduce_dims` on a TT matrix.  The rebuild appends
`cores_new[i].shape[1]` to `self.N` and `cores_new[i].shape[2]` to
`self.M` — i.e. it stores the ROW sizes in `N` and the COLUMN sizes in
`M`, the opposite of the convention `__init__` uses (`M.append(s[1])`,
`N.append(s[2])`).  The embedding reproduces that swap verbatim; it does
not affect the rank structure. -/
def reduceDims4 (x : TTmat) : TTmat :=
  let rc := reduceGo4 (x.cores.length + 1) [] x.cores
  ⟨rc, rc.map (·.n), rc.map (·.m), 1 :: rc.map (·.r2)⟩

/-- Replacing two adjacent cores by one with the same outer ranks
preserves the adjacency chain. -/
theorem chainB_splice (ys : List Core3) (e f g : Core3) (rest : List Core3)
    (h1 : g.r1 = e.r1) (h2 : g.r2 = f.r2) :
    ∀ r, chainB (ys ++ e :: f :: rest) r = true →
      chainB (ys ++ g :: rest) r = true := by
  induction ys with
  | nil =>
    intro r h
    simp only [List.nil_append, chainB, Bool.and_eq_true, beq_iff_eq] at h ⊢
    exact ⟨by rw [h1]; exact h.1, by rw [h2]; exact h.2.2⟩
  | cons a ys ih =>
    intro r h
    simp only [List.cons_append, chainB, Bool.and_eq_true] at h ⊢
    exact ⟨h.1, ih _ h.2⟩

/-- Replacing two adjacent cores by one with the same trailing rank
preserves the trailing rank of the whole list. -/
theorem trail3_splice (ys : List Core3) (e f g : Core3) (rest : List Core3)
    (h2 : g.r2 = f.r2) :
    trail3 (ys ++ g :: rest) = trail3 (ys ++ e :: f :: rest) := by
  rw [trail3_append ys (g :: rest) (by simp),
    trail3_append ys (e :: f :: rest) (by simp),
    show trail3 (e :: f :: rest) = trail3 (f :: rest) from rfl]
  cases rest with
  | nil => simpa [trail3] using h2
  | cons x xs => rfl

theorem chainB4_splice (ys : List Core4) (e f g : Core4) (rest : List Core4)
    (h1 : g.r1 = e.r1) (h2 : g.r2 = f.r2) :
    ∀ r, chainB4 (ys ++ e :: f :: rest) r = true →
      chainB4 (ys ++ g :: rest) r = true := by
  induction ys with
  | nil =>
    intro r h
    simp only [List.nil_append, chainB4, Bool.and_eq_true, beq_iff_eq] at h ⊢
    exact ⟨by rw [h1]; exact h.1, by rw [h2]; exact h.2.2⟩
  | cons a ys ih =>
    intro r h
    simp only [List.cons_append, chainB4, Bool.and_eq_true] at h ⊢
    exact ⟨h.1, ih _ h.2⟩

theorem trail4_append (cs ds : List Core4) (h : ds ≠ []) :
    trail4 (cs ++ ds) = trail4 ds := by
  induction cs with
  | nil => rfl
  | cons c rest ih =>
    have hne : rest ++ ds ≠ [] := by
      simp only [ne_eq, List.append_eq_nil]
      rintro ⟨-, rfl⟩
      exact h rfl
    rcases hcd : rest ++ ds with _ | ⟨e, l⟩
    · exact absurd hcd hne
    · rw [List.cons_append, hcd,
        show trail4 (c :: e :: l) = trail4 (e :: l) from rfl, ← hcd, ih]

theorem trail4_splice (ys : List Core4) (e f g : Core4) (rest : List Core4)
    (h2 : g.r2 = f.r2) :
    trail4 (ys ++ g :: rest) = trail4 (ys ++ e :: f :: rest) := by
  rw [trail4_append ys (g :: rest) (by simp),
    trail4_append ys (e :: f :: rest) (by simp),
    show trail4 (e :: f :: rest) = trail4 (f :: rest) from rfl]
  cases rest with
  | nil => simpa [trail4] using h2
  | cons x xs => rfl


/-- The `reduce_dims` loop preserves the adjacency chain and the trailing
rank of the full state `cores_new.reverse ++ remaining`: every fold
replaces two adjacent cores by one with the same outer ranks, and every
append leaves the list unchanged. -/
theorem reduceGo3_pres (fuel : ℕ) :
    ∀ (acc cs : List Core3) (r : ℕ),
      chainB (acc.reverse ++ cs) r = true →
      chainB (reduceGo3 fuel acc cs) r = true ∧
      trail3 (reduceGo3 fuel acc cs) = trail3 (acc.reverse ++ cs) := by
  induction fuel with
  | zero =>
    intro acc cs r h
    exact ⟨by simpa [reduceGo3] using h, by simp [reduceGo3]⟩
  | succ n ih =>
    intro acc cs r h
    rcases cs with _ | ⟨c, rest⟩
    · refine ⟨?_, ?_⟩
      · rw [show reduceGo3 (n + 1) acc [] = acc.reverse from rfl]
        simpa using h
      · rw [show reduceGo3 (n + 1) acc [] = acc.reverse from rfl]
        simp
    · by_cases hn : c.n = 1
      · rcases rest with _ | ⟨d, restT⟩
        · rcases acc with _ | ⟨a, accT⟩
          · have hstep : reduceGo3 (n + 1) [] [c] = reduceGo3 n [c] [] := by
              simp [reduceGo3, hn]
            have hset : ([c] : List Core3).reverse ++ [] =
                ([] : List Core3).reverse ++ [c] := by simp
            obtain ⟨h1, h2⟩ := ih [c] [] r (by rw [hset]; exact h)
            rw [hstep]
            exact ⟨h1, by rw [h2, hset]⟩
          · have hstep : reduceGo3 (n + 1) (a :: accT) [c] =
                reduceGo3 n (foldLeft3 a c :: accT) [] := by
              simp [reduceGo3, hn]
            have holdL : (a :: accT).reverse ++ [c] =
                accT.reverse ++ a :: c :: ([] : List Core3) := by simp
            have hset : (foldLeft3 a c :: accT).reverse ++ ([] : List Core3) =
                accT.reverse ++ foldLeft3 a c :: ([] : List Core3) := by simp
            have hch : chainB ((foldLeft3 a c :: accT).reverse ++
                ([] : List Core3)) r = true := by
              rw [hset]
              exact chainB_splice accT.reverse a c (foldLeft3 a c) [] rfl rfl r
                (holdL ▸ h)
            obtain ⟨h1, h2⟩ := ih (foldLeft3 a c :: accT) [] r hch
            rw [hstep]
            refine ⟨h1, ?_⟩
            rw [h2, hset, trail3_splice accT.reverse a c (foldLeft3 a c) [] rfl,
              ← holdL]
        · by_cases hr : c.r2 < c.r1
          · rcases acc with _ | ⟨a, accT⟩
            · have hstep : reduceGo3 (n + 1) [] (c :: d :: restT) =
                  reduceGo3 n [] (foldRight3 c d :: restT) := by
                simp [reduceGo3, hn, hr]
              have holdL : ([] : List Core3).reverse ++ (c :: d :: restT) =
                  [] ++ c :: d :: restT := by simp
              have hset : ([] : List Core3).reverse ++ (foldRight3 c d :: restT) =
                  [] ++ foldRight3 c d :: restT := by simp
              have hch : chainB (([] : List Core3).reverse ++
                  (foldRight3 c d :: restT)) r = true := by
                rw [hset]
                exact chainB_splice [] c d (foldRight3 c d) restT rfl rfl r
                  (holdL ▸ h)
              obtain ⟨h1, h2⟩ := ih [] (foldRight3 c d :: restT) r hch
              rw [hstep]
              refine ⟨h1, ?_⟩
              rw [h2, hset, trail3_splice [] c d (foldRight3 c d) restT rfl,
                ← holdL]
            · have hstep : reduceGo3 (n + 1) (a :: accT) (c :: d :: restT) =
                  reduceGo3 n (foldLeft3 a c :: accT) (d :: restT) := by
                simp [reduceGo3, hn, hr]
              have holdL : (a :: accT).reverse ++ (c :: d :: restT) =
                  accT.reverse ++ a :: c :: (d :: restT) := by simp
              have hset : (foldLeft3 a c :: accT).reverse ++ (d :: restT) =
                  accT.reverse ++ foldLeft3 a c :: (d :: restT) := by simp
              have hch : chainB ((foldLeft3 a c :: accT).reverse ++
                  (d :: restT)) r = true := by
                rw [hset]
                exact chainB_splice accT.reverse a c (foldLeft3 a c)
                  (d :: restT) rfl rfl r (holdL ▸ h)
              obtain ⟨h1, h2⟩ := ih (foldLeft3 a c :: accT) (d :: restT) r hch
              rw [hstep]
              refine ⟨h1, ?_⟩
              rw [h2, hset, trail3_splice accT.reverse a c (foldLeft3 a c)
                (d :: restT) rfl, ← holdL]
          · have hstep : reduceGo3 (n + 1) acc (c :: d :: restT) =
                reduceGo3 n acc (foldRight3 c d :: restT) := by
              simp [reduceGo3, hn, hr]
            have hch : chainB (acc.reverse ++ (foldRight3 c d :: restT)) r =
                true :=
              chainB_splice acc.reverse c d (foldRight3 c d) restT rfl rfl r h
            obtain ⟨h1, h2⟩ := ih acc (foldRight3 c d :: restT) r hch
            rw [hstep]
            refine ⟨h1, ?_⟩
            rw [h2, trail3_splice acc.reverse c d (foldRight3 c d) restT rfl]
      · have hstep : reduceGo3 (n + 1) acc (c :: rest) =
            reduceGo3 n (c :: acc) rest := by
          simp [reduceGo3, hn]
        have hset : (c :: acc).reverse ++ rest = acc.reverse ++ c :: rest := by
          simp
        obtain ⟨h1, h2⟩ := ih (c :: acc) rest r (by rw [hset]; exact h)
        rw [hstep]
        exact ⟨h1, by rw [h2, hset]⟩

/-- The rank-4 `reduce_dims` loop preserves the chain and trailing rank. -/
theorem reduceGo4_pres (fuel : ℕ) :
    ∀ (acc cs : List Core4) (r : ℕ),
      chainB4 (acc.reverse ++ cs) r = true →
      chainB4 (reduceGo4 fuel acc cs) r = true ∧
      trail4 (reduceGo4 fuel acc cs) = trail4 (acc.reverse ++ cs) := by
  induction fuel with
  | zero =>
    intro acc cs r h
    exact ⟨by simpa [reduceGo4] using h, by simp [reduceGo4]⟩
  | succ n ih =>
    intro acc cs r h
    rcases cs with _ | ⟨c, rest⟩
    · refine ⟨?_, ?_⟩
      · rw [show reduceGo4 (n + 1) acc [] = acc.reverse from rfl]
        simpa using h
      · rw [show reduceGo4 (n + 1) acc [] = acc.reverse from rfl]
        simp
    · by_cases hn : c.m = 1 ∧ c.n = 1
      · rcases rest with _ | ⟨d, restT⟩
        · rcases acc with _ | ⟨a, accT⟩
          · have hstep : reduceGo4 (n + 1) [] [c] = reduceGo4 n [c] [] := by
              simp [reduceGo4, hn.1, hn.2]
            have hset : ([c] : List Core4).reverse ++ [] =
                ([] : List Core4).reverse ++ [c] := by simp
            obtain ⟨h1, h2⟩ := ih [c] [] r (by rw [hset]; exact h)
            rw [hstep]
            exact ⟨h1, by rw [h2, hset]⟩
          · have hstep : reduceGo4 (n + 1) (a :: accT) [c] =
                reduceGo4 n (foldLeft4 a c :: accT) [] := by
              simp [reduceGo4, hn.1, hn.2]
            have holdL : (a :: accT).reverse ++ [c] =
                accT.reverse ++ a :: c :: ([] : List Core4) := by simp
            have hset : (foldLeft4 a c :: accT).reverse ++ ([] : List Core4) =
                accT.reverse ++ foldLeft4 a c :: ([] : List Core4) := by simp
            have hch : chainB4 ((foldLeft4 a c :: accT).reverse ++
                ([] : List Core4)) r = true := by
              rw [hset]
              exact chainB4_splice accT.reverse a c (foldLeft4 a c) [] rfl rfl r
                (holdL ▸ h)
            obtain ⟨h1, h2⟩ := ih (foldLeft4 a c :: accT) [] r hch
            rw [hstep]
            refine ⟨h1, ?_⟩
            rw [h2, hset, trail4_splice accT.reverse a c (foldLeft4 a c) [] rfl,
              ← holdL]
        · by_cases hr : c.r2 < c.r1
          · rcases acc with _ | ⟨a, accT⟩
            · have hstep : reduceGo4 (n + 1) [] (c :: d :: restT) =
                  reduceGo4 n [] (foldRight4 c d :: restT) := by
                simp [reduceGo4, hn.1, hn.2, hr]
              have holdL : ([] : List Core4).reverse ++ (c :: d :: restT) =
                  [] ++ c :: d :: restT := by simp
              have hset : ([] : List Core4).reverse ++ (foldRight4 c d :: restT) =
                  [] ++ foldRight4 c d :: restT := by simp
              have hch : chainB4 (([] : List Core4).reverse ++
                  (foldRight4 c d :: restT)) r = true := by
                rw [hset]
                exact chainB4_splice [] c d (foldRight4 c d) restT rfl rfl r
                  (holdL ▸ h)
              obtain ⟨h1, h2⟩ := ih [] (foldRight4 c d :: restT) r hch
              rw [hstep]
              refine ⟨h1, ?_⟩
              rw [h2, hset, trail4_splice [] c d (foldRight4 c d) restT rfl,
                ← holdL]
            · have hstep : reduceGo4 (n + 1) (a :: accT) (c :: d :: restT) =
                  reduceGo4 n (foldLeft4 a c :: accT) (d :: restT) := by
                simp [reduceGo4, hn.1, hn.2, hr]
              have holdL : (a :: accT).reverse ++ (c :: d :: restT) =
                  accT.reverse ++ a :: c :: (d :: restT) := by simp
              have hset : (foldLeft4 a c :: accT).reverse ++ (d :: restT) =
                  accT.reverse ++ foldLeft4 a c :: (d :: restT) := by simp
              have hch : chainB4 ((foldLeft4 a c :: accT).reverse ++
                  (d :: restT)) r = true := by
                rw [hset]
                exact chainB4_splice accT.reverse a c (foldLeft4 a c)
                  (d :: restT) rfl rfl r (holdL ▸ h)
              obtain ⟨h1, h2⟩ := ih (foldLeft4 a c :: accT) (d :: restT) r hch
              rw [hstep]
              refine ⟨h1, ?_⟩
              rw [h2, hset, trail4_splice accT.reverse a c (foldLeft4 a c)
                (d :: restT) rfl, ← holdL]
          · have hstep : reduceGo4 (n + 1) acc (c :: d :: restT) =
                reduceGo4 n acc (foldRight4 c d :: restT) := by
              simp [reduceGo4, hn.1, hn.2, hr]
            have hch : chainB4 (acc.reverse ++ (foldRight4 c d :: restT)) r =
                true :=
              chainB4_splice acc.reverse c d (foldRight4 c d) restT rfl rfl r h
            obtain ⟨h1, h2⟩ := ih acc (foldRight4 c d :: restT) r hch
            rw [hstep]
            refine ⟨h1, ?_⟩
            rw [h2, trail4_splice acc.reverse c d (foldRight4 c d) restT rfl]
      · have hstep : reduceGo4 (n + 1) acc (c :: rest) =
            reduceGo4 n (c :: acc) rest := by
          simp only [reduceGo4, if_neg hn]
        have hset : (c :: acc).reverse ++ rest = acc.reverse ++ c :: rest := by
          simp
        obtain ⟨h1, h2⟩ := ih (c :: acc) rest r (by rw [hset]; exact h)
        rw [hstep]
        exact ⟨h1, by rw [h2, hset]⟩

/-- `reduce_dims` keeps a TT tensor structurally valid. -/
theorem reduceDims3_structOK (x : TTtens) (h : structOK3 x) :
    structOK3 (reduceDims3 x) := by
  obtain ⟨hc, ht⟩ := structOK3_chain x h
  obtain ⟨h1, h2⟩ := reduceGo3_pres (x.cores.length + 1) [] x.cores 1
    (by simpa using hc)
  have htr : trail3 (reduceGo3 (x.cores.length + 1) [] x.cores) = 1 := by
    rw [h2]; simpa using ht
  exact structOK3_mk _ h1 htr

/-- Like `structOK4_mk`, but with the mode lists read in the swapped order
the `reduce_dims` rebuild uses; the invariants never inspect the mode
values, only the list lengths. -/
theorem structOK4_mkSwap (cs : List Core4) (hchain : chainB4 cs 1 = true)
    (ht : trail4 cs = 1) :
    structOK4 ⟨cs, cs.map (·.n), cs.map (·.m), 1 :: cs.map (·.r2)⟩ := by
  refine ⟨by simp, by simp, ?_, by simp, ?_⟩
  · rcases cs with _ | ⟨c, rest⟩
    · simp [List.getLastD]
    · rw [List.getLastD_cons, map4_r2_getLastD _ (by simp) 1]
      exact ht
  · intro i hi
    have := chainB4_adj cs 1 hchain i (by simpa using hi)
    exact ⟨this.1, by simpa using this.2⟩

/-- `reduce_dims` keeps a TT matrix structurally valid (the M/N swap in
its rebuild does not disturb the rank structure). -/
theorem reduceDims4_structOK (x : TTmat) (h : structOK4 x) :
    structOK4 (reduceDims4 x) := by
  obtain ⟨hc, ht⟩ := structOK4_chain x h
  obtain ⟨h1, h2⟩ := reduceGo4_pres (x.cores.length + 1) [] x.cores 1
    (by simpa using hc)
  have htr : trail4 (reduceGo4 (x.cores.length + 1) [] x.cores) = 1 := by
    rw [h2]; simpa using ht
  exact structOK4_mkSwap _ h1 htr


/-! ### Slicing (`__getitem__` with a tuple index) -/

/-- One entry of the index tuple: a Python `int` or a (non-negative,
unit-step) `slice lo:hi`. -/
inductive SIdx : Type
  | fix (j : ℕ)
  | rng (lo hi : ℕ)

/-- A sliced core is 3d (`index[i]` was a slice on a TT tensor, or a
slice/int row-column pair of a TT matrix collapsing to 3d) or 4d. -/
inductive SCore : Type
  | c3 (c : Core3)
  | c4 (c : Core4)

/-- What `__getitem__` hands back on the tuple path: a scalar (all modes
reduced to size 1, `tn.squeeze(sliced.cores[0])`) or a TT object. -/
inductive SliceResult : Type
  | scalarR (v : ℚ)
  | ttR (t : TTObj)

/-- Python list indexing: out of range raises `IndexError`. -/
def pyGet {α : Type} (xs : List α) (i : ℕ) : Except PyError α :=
  match xs.get? i with
  | some v => .ok v
  | none => .error .IndexError

/-- Slicing one rank-3 core.  A slice keeps the core shape with the mode
range clamped the way Python clamps slice bounds
(`self.cores[i][:,index[i],:]`); an integer index takes the mode slice and
reshapes it to `[self.R[i], -1, self.R[i+1]]`, which raises a torch
runtime error when the element count is not divisible by
`R[i] * R[i+1]`. -/
def sliceCore3 (R : List ℕ) (i : ℕ) (c : Core3) : SIdx → Except PyError Core3
  | .rng lo hi =>
    .ok ⟨c.r1, min hi c.n - min lo c.n, c.r2,
      fun a j b => c.entry a (min lo c.n + j) b⟩
  | .fix j =>
    if j < c.n then
      match pyGet R i with
      | .error e => .error e
      | .ok r0 =>
        match pyGet R (i + 1) with
        | .error e => .error e
        | .ok r1 =>
          if c.r1 * c.r2 % (r0 * r1) = 0 then
            .ok ⟨r0, c.r1 * c.r2 / (r0 * r1), r1, fun a k b =>
              c.entry ((a * (c.r1 * c.r2 / (r0 * r1)) * r1 + k * r1 + b) / c.r2)
                j
                ((a * (c.r1 * c.r2 / (r0 * r1)) * r1 + k * r1 + b) % c.r2)⟩
          else .error .BackendError
    else .error .IndexError

/-- The slicing loop over the cores of a TT tensor, reading `index[i]` at
the absolute position `i`. -/
def sliceGo3 (idx : List SIdx) (R : List ℕ) :
    ℕ → List Core3 → Except PyError (List Core3)
  | _, [] => .ok []
  | i, c :: cs =>
    match pyGet idx i with
    | .error e => .error e
    | .ok ix =>
      match sliceCore3 R i c ix with
      | .error e => .error e
      | .ok sc =>
        match sliceGo3 idx R (i + 1) cs with
        | .error e => .error e
        | .ok rest => .ok (sc :: rest)

/-- Slicing one rank-4 core of a TT matrix.  The source only tests whether
the ROW index is a slice: a slice row keeps
`self.cores[i][:,index[i],index[i+len(self.N)],:]` — 4d when the column
index is also a slice, 3d when it is an int — while an int row reshapes
that sub-tensor to `[self.R[i],1,1,self.R[i+1]]`, a fixed shape whose
element count must match exactly. -/
def sliceCore4 (R : List ℕ) (i : ℕ) (c : Core4) :
    SIdx → SIdx → Except PyError SCore
  | .rng lo hi, .rng lo2 hi2 =>
    .ok (.c4 ⟨c.r1, min hi c.m - min lo c.m, min hi2 c.n - min lo2 c.n, c.r2,
      fun a j k b => c.entry a (min lo c.m + j) (min lo2 c.n + k) b⟩)
  | .rng lo hi, .fix k =>
    if k < c.n then
      .ok (.c3 ⟨c.r1, min hi c.m - min lo c.m, c.r2,
        fun a j b => c.entry a (min lo c.m + j) k b⟩)
    else .error .IndexError
  | .fix j, ic =>
    if j < c.m then
      match pyGet R i with
      | .error e => .error e
      | .ok r0 =>
        match pyGet R (i + 1) with
        | .error e => .error e
        | .ok r1 =>
          match ic with
          | .fix k =>
            if k < c.n then
              if c.r1 * c.r2 = r0 * r1 then
                .ok (.c4 ⟨r0, 1, 1, r1, fun a _ _ b =>
                  c.entry ((a * r1 + b) / c.r2) j k ((a * r1 + b) % c.r2)⟩)
              else .error .BackendError
            else .error .IndexError
          | .rng lo2 hi2 =>
            if c.r1 * (min hi2 c.n - min lo2 c.n) * c.r2 = r0 * r1 then
              .ok (.c4 ⟨r0, 1, 1, r1, fun a _ _ b =>
                c.entry
                  ((a * r1 + b) / ((min hi2 c.n - min lo2 c.n) * c.r2)) j
                  (min lo2 c.n +
                    (a * r1 + b) % ((min hi2 c.n - min lo2 c.n) * c.r2) / c.r2)
                  ((a * r1 + b) % c.r2)⟩)
            else .error .BackendError
    else .error .IndexError

/-- The slicing loop over the cores of a TT matrix: position `i` reads the
row index `index[i]` and the column index `index[i + len(self.N)]`. -/
def sliceGo4 (idx : List SIdx) (R : List ℕ) (nlen : ℕ) :
    ℕ → List Core4 → Except PyError (List SCore)
  | _, [] => .ok []
  | i, c :: cs =>
    match pyGet idx i with
    | .error e => .error e
    | .ok ir =>
      match pyGet idx (i + nlen) with
      | .error e => .error e
      | .ok ic =>
        match sliceCore4 R i c ir ic with
        | .error e => .error e
        | .ok sc =>
          match sliceGo4 idx R nlen (i + 1) cs with
          | .error e => .error e
          | .ok rest => .ok (sc :: rest)

/-- The shape list of a sliced core, as `TT.__init__` sees it. -/
def blockOf : SCore → Block
  | .c3 c => block3 c
  | .c4 c => block4 c

/-- All sliced cores are 3d. -/
def asCores3 : List SCore → Option (List Core3)
  | [] => some []
  | .c3 c :: rest => (asCores3 rest).map (c :: ·)
  | .c4 _ :: _ => none

/-- All sliced cores are 4d. -/
def asCores4 : List SCore → Option (List Core4)
  | [] => some []
  | .c4 c :: rest => (asCores4 rest).map (c :: ·)
  | .c3 _ :: _ => none

/-- `TT(cores_new)` on a possibly mixed 3d/4d core list.  A genuinely
mixed list can never satisfy the constructor: its pass over the shapes
collects a nonempty `M` shorter than `N`, so the final check raises
`InvalidArguments` whenever the rank scan itself did not already fail;
`fromBlocks` computes exactly that, and on a (dead) `ok` the mixed branch
reports the final check failure. -/
def fromCoresMixed (scs : List SCore) : Except PyError TTObj :=
  match asCores3 scs with
  | some cs => (fromCores3 cs).map .tens
  | none =>
    match asCores4 scs with
    | some cs => (fromCores4 cs).map .mat
    | none =>
      match fromBlocks (scs.map blockOf) with
      | .ok _ => .error .InvalidArguments
      | .error e => .error e

/-- The tuple path of `__getitem__` on a TT tensor: check the index
length, slice every core, rebuild with `TT(cores_new)`, reduce the size-1
modes, and squeeze to a scalar when a single size-1 mode is left. -/
def ttSliceTens (x : TTtens) (idx : List SIdx) : Except PyError SliceResult :=
  if idx.length ≠ x.N.length then .error .InvalidArguments
  else
    match sliceGo3 idx x.R 0 x.cores with
    | .error e => .error e
    | .ok cs =>
      match fromCores3 cs with
      | .error e => .error e
      | .ok t0 =>
        if (reduceDims3 t0).N = [1] then
          .ok (.scalarR (((reduceDims3 t0).cores.headD default).entry 0 0 0))
        else .ok (.ttR (.tens (reduceDims3 t0)))

/-- The tuple path of `__getitem__` on a TT matrix.  The sliced cores can
be all 3d (every column index an int), all 4d, or mixed (which
`TT(cores_new)` rejects); the squeeze test is
`sliced.N == [1] and sliced.M == [1]` for a TT matrix. -/
def ttSliceMat (x : TTmat) (idx : List SIdx) : Except PyError SliceResult :=
  if idx.length ≠ 2 * x.N.length then .error .InvalidArguments
  else
    match sliceGo4 idx x.R x.N.length 0 x.cores with
    | .error e => .error e
    | .ok scs =>
      match fromCoresMixed scs with
      | .error e => .error e
      | .ok (.tens t0) =>
        if (reduceDims3 t0).N = [1] then
          .ok (.scalarR (((reduceDims3 t0).cores.headD default).entry 0 0 0))
        else .ok (.ttR (.tens (reduceDims3 t0)))
      | .ok (.mat t0) =>
        if (reduceDims4 t0).N = [1] ∧ (reduceDims4 t0).M = [1] then
          .ok (.scalarR (((reduceDims4 t0).cores.headD default).entry 0 0 0 0))
        else .ok (.ttR (.mat (reduceDims4 t0)))

/-- `__getitem__` with a tuple index, on either kind of TT object. -/
def ttSlice : TTObj → List SIdx → Except PyError SliceResult
  | .tens x, idx => ttSliceTens x idx
  | .mat x, idx => ttSliceMat x idx


/-! ### Invariant preservation across the operators (C2) -/

/-- Inverting `.map TTObj.tens` on a success. -/
theorem map_tens_ok (e : Except PyError TTtens) (r : TTObj)
    (h : e.map TTObj.tens = .ok r) : ∃ t, e = .ok t ∧ r = .tens t := by
  rcases e with e | t
  · simp [Except.map] at h
  · exact ⟨t, rfl, by simpa [Except.map] using h.symm⟩

/-- Inverting `.map TTObj.mat` on a success. -/
theorem map_mat_ok (e : Except PyError TTmat) (r : TTObj)
    (h : e.map TTObj.mat = .ok r) : ∃ t, e = .ok t ∧ r = .mat t := by
  rcases e with e | t
  · simp [Except.map] at h
  · exact ⟨t, rfl, by simpa [Except.map] using h.symm⟩

/-- A successful TT + TT addition went through `TT(cores_new)`. -/
theorem ttAddTens_ok_structOK (a b : TTtens) (neg : Bool) (t : TTtens)
    (h : ttAddTens a b neg = .ok t) : structOK3 t := by
  unfold ttAddTens at h
  split_ifs at h with h1 h2
  rcases hb : buildAdd3 a b neg with e | cs
  · rw [hb] at h
    simp at h
  · rw [hb] at h
    exact fromCores3_structOK _ _ h

/-- A successful TTM + TTM addition went through `TT(cores_new)`. -/
theorem ttAddMat_ok_structOK (a b : TTmat) (neg : Bool) (t : TTmat)
    (h : ttAddMat a b neg = .ok t) : structOK4 t := by
  unfold ttAddMat at h
  split_ifs at h with h1 h2
  rcases hb : buildAdd4 a b neg with e | cs
  · rw [hb] at h
    simp at h
  · rw [hb] at h
    exact fromCores4_structOK _ _ h

/-- A successful scalar addition went through `TT(cores_new)`. -/
theorem ttAddScalar_ok_structOK (x : TTObj) (s : ℚ) (r : TTObj)
    (h : ttAddScalar x s = .ok r) : structOK r := by
  cases x with
  | tens a =>
    simp only [ttAddScalar] at h
    split_ifs at h with h1
    obtain ⟨t, ht, rfl⟩ := map_tens_ok _ _ h
    exact fromCores3_structOK _ _ ht
  | mat a =>
    simp only [ttAddScalar] at h
    split_ifs at h with h1
    obtain ⟨t, ht, rfl⟩ := map_mat_ok _ _ h
    exact fromCores4_structOK _ _ ht

/-- Every TT object `__add__` returns satisfies the invariants. -/
theorem ttAdd_ok_structOK (x : TTObj) (o : AddOperand) (r : TTObj)
    (h : ttAdd x o = .ok r) : structOK r := by
  cases o with
  | scalar s => exact ttAddScalar_ok_structOK x s r h
  | ttobj y =>
    cases x with
    | tens a =>
      cases y with
      | tens b =>
        simp only [ttAdd] at h
        obtain ⟨t, ht, rfl⟩ := map_tens_ok _ _ h
        exact ttAddTens_ok_structOK a b false t ht
      | mat b => simp [ttAdd] at h
    | mat a =>
      cases y with
      | tens b => simp [ttAdd] at h
      | mat b =>
        simp only [ttAdd] at h
        obtain ⟨t, ht, rfl⟩ := map_mat_ok _ _ h
        exact ttAddMat_ok_structOK a b false t ht
  | other => simp [ttAdd] at h

/-- A successful TTM Hadamard product went through `TT(cores_new)`. -/
theorem ttMulTTM_ok_structOK (a b : TTmat) (t : TTmat)
    (h : ttMulTTM a b = .ok t) : structOK4 t := by
  unfold ttMulTTM at h
  split_ifs at h with h1 h2 h3
  exact fromCores4_structOK _ _ h

/-- Every TT object `__mul__` returns satisfies the invariants. -/
theorem ttMul_ok_structOK (x : TTObj) (o : MulOperand) (r : TTObj)
    (h : ttMul x o = .ok r) : structOK r := by
  cases o with
  | ttobj y =>
    cases x with
    | tens a =>
      cases y with
      | tens b =>
        simp only [ttMul] at h
        obtain ⟨t, ht, rfl⟩ := map_tens_ok _ _ h
        exact fromCores3_structOK _ _ (ttMulTT_ok_inv a b t ht).2.2
      | mat b => simp [ttMul] at h
    | mat a =>
      cases y with
      | tens b => simp [ttMul] at h
      | mat b =>
        simp only [ttMul] at h
        obtain ⟨t, ht, rfl⟩ := map_mat_ok _ _ h
        exact ttMulTTM_ok_structOK a b t ht
  | intScalar s =>
    cases x with
    | tens a =>
      simp only [ttMul] at h
      obtain ⟨t, ht, rfl⟩ := map_tens_ok _ _ h
      exact fromCores3_structOK _ _ ht
    | mat a =>
      simp only [ttMul] at h
      obtain ⟨t, ht, rfl⟩ := map_mat_ok _ _ h
      exact fromCores4_structOK _ _ ht
  | floatScalar s =>
    cases x with
    | tens a =>
      simp only [ttMul] at h
      obtain ⟨t, ht, rfl⟩ := map_tens_ok _ _ h
      exact fromCores3_structOK _ _ ht
    | mat a =>
      simp only [ttMul] at h
      obtain ⟨t, ht, rfl⟩ := map_mat_ok _ _ h
      exact fromCores4_structOK _ _ ht
  | torchTensor v => simp [ttMul] at h
  | other => simp [ttMul] at h

/-- Every TT object `__matmul__` returns satisfies the invariants. -/
theorem ttMatmul_ok_structOK (x y : TTObj) (r : TTObj)
    (h : ttMatmul x y = .ok r) : structOK r := by
  cases x with
  | tens a =>
    cases y with
    | tens b => simp [ttMatmul] at h
    | mat b =>
      simp only [ttMatmul] at h
      split_ifs at h with h1 h2 h3
      obtain ⟨t, ht, rfl⟩ := map_tens_ok _ _ h
      exact fromCores3_structOK _ _ ht
  | mat a =>
    cases y with
    | tens b =>
      simp only [ttMatmul] at h
      split_ifs at h with h1 h2 h3
      obtain ⟨t, ht, rfl⟩ := map_tens_ok _ _ h
      exact fromCores3_structOK _ _ ht
    | mat b =>
      simp only [ttMatmul] at h
      split_ifs at h with h1 h2 h3
      obtain ⟨t, ht, rfl⟩ := map_mat_ok _ _ h
      exact fromCores4_structOK _ _ ht

/-- Every TT object `kron` returns satisfies the invariants. -/
theorem kron_ok_structOK (x y : TTObj) (r : TTObj)
    (h : kron x y = .ok r) : structOK r := by
  cases x with
  | tens a =>
    cases y with
    | tens b =>
      simp only [kron] at h
      obtain ⟨t, ht, rfl⟩ := map_tens_ok _ _ h
      exact fromCores3_structOK _ _ ht
    | mat b => simp [kron] at h
  | mat a =>
    cases y with
    | tens b => simp [kron] at h
    | mat b =>
      simp only [kron] at h
      obtain ⟨t, ht, rfl⟩ := map_mat_ok _ _ h
      exact fromCores4_structOK _ _ ht

/-- Whatever `TT(cores_new)` accepts — all 3d, all 4d, with the mixed
case never accepted — satisfies the invariants. -/
theorem fromCoresMixed_ok_structOK (scs : List SCore) (r : TTObj)
    (h : fromCoresMixed scs = .ok r) : structOK r := by
  simp only [fromCoresMixed] at h
  rcases h3 : asCores3 scs with _ | cs
  · rw [h3] at h
    rcases h4 : asCores4 scs with _ | cs
    · rw [h4] at h
      rcases hb : fromBlocks (scs.map blockOf) with e | d
      · rw [hb] at h
        simp at h
      · rw [hb] at h
        simp at h
    · rw [h4] at h
      obtain ⟨t, ht, rfl⟩ := map_mat_ok _ _ h
      exact fromCores4_structOK _ _ ht
  · rw [h3] at h
    obtain ⟨t, ht, rfl⟩ := map_tens_ok _ _ h
    exact fromCores3_structOK _ _ ht

/-- Every TT object the tensor tuple-slicing path returns satisfies the
invariants: the sliced cores pass through `TT(cores_new)` and then
`reduce_dims`, which preserves them. -/
theorem ttSliceTens_ok_structOK (x : TTtens) (idx : List SIdx) (t : TTObj)
    (h : ttSliceTens x idx = .ok (.ttR t)) : structOK t := by
  simp only [ttSliceTens] at h
  split_ifs at h with h1
  split at h
  · simp at h
  · split at h
    · simp at h
    · split at h
      · simp at h
      · simp only [Except.ok.injEq, SliceResult.ttR.injEq] at h
        subst h
        rename_i t0 heq hcond
        exact reduceDims3_structOK t0 (fromCores3_structOK _ _ heq)

/-- Every TT object the matrix tuple-slicing path returns satisfies the
invariants. -/
theorem ttSliceMat_ok_structOK (x : TTmat) (idx : List SIdx) (t : TTObj)
    (h : ttSliceMat x idx = .ok (.ttR t)) : structOK t := by
  simp only [ttSliceMat] at h
  split_ifs at h with h1
  split at h
  · simp at h
  · split at h
    · simp at h
    · split at h
      · simp at h
      · simp only [Except.ok.injEq, SliceResult.ttR.injEq] at h
        subst h
        rename_i t0 heq hcond
        exact reduceDims3_structOK t0 (fromCoresMixed_ok_structOK _ _ heq)
    · split at h
      · simp at h
      · simp only [Except.ok.injEq, SliceResult.ttR.injEq] at h
        subst h
        rename_i t0 heq hcond
        exact reduceDims4_structOK t0 (fromCoresMixed_ok_structOK _ _ heq)

/-- Every TT object tuple slicing returns satisfies the invariants. -/
theorem ttSlice_ok_structOK (x : TTObj) (idx : List SIdx) (t : TTObj)
    (h : ttSlice x idx = .ok (.ttR t)) : structOK t := by
  cases x with
  | tens a => exact ttSliceTens_ok_structOK a idx t h
  | mat a => exact ttSliceMat_ok_structOK a idx t h


/-- C2: every TT object produced by the operators `+` (`__add__`), `*`
(`__mul__`), `@` (`__matmul__`), `kron` / `**`, and tuple slicing
(`__getitem__`) satisfies the structural invariants
`len(R) == len(N) + 1`, `R[0] == R[-1] == 1`, and, for every `i`, core
`i` has leading dimension `R[i]` and trailing dimension `R[i+1]`.  The
arithmetic operators build their result with `TT(cores_new)`, whose
validation enforces the invariants; slicing also re-validates with
`TT(cores_new)` and then calls `reduce_dims`, whose left/right folds
replace two adjacent cores by one with the same outer ranks and so
preserve the invariants (this covers the in-place rewrite of `self`). -/
theorem claim_C2 :
    (∀ (x : TTObj) (o : AddOperand) (r : TTObj),
      ttAdd x o = .ok r → structOK r) ∧
    (∀ (x : TTObj) (o : MulOperand) (r : TTObj),
      ttMul x o = .ok r → structOK r) ∧
    (∀ (x y r : TTObj), ttMatmul x y = .ok r → structOK r) ∧
    (∀ (x y r : TTObj), kron x y = .ok r → structOK r) ∧
    (∀ (x : TTObj) (idx : List SIdx) (t : TTObj),
      ttSlice x idx = .ok (.ttR t) → structOK t) :=
  ⟨ttAdd_ok_structOK, ttMul_ok_structOK, ttMatmul_ok_structOK,
    kron_ok_structOK, ttSlice_ok_structOK⟩

/-- A two-valued core for the C2 witness computations. -/
def wCore : Core3 := ⟨1, 2, 1, fun _ i _ => (i : ℚ) + 1⟩

/-- A one-mode TT tensor for the C2 witness. -/
def wTens : TTtens := ⟨[wCore], [2], [1, 1]⟩

/-- A one-mode TT matrix for the C2 witness. -/
def wMat : TTmat :=
  ⟨[⟨1, 2, 2, 1, fun _ i j _ => if i = j then 1 else 0⟩], [2], [2], [1, 1]⟩

/-- A two-mode rank-2 TT tensor for the C2 slicing witness. -/
def wX2 : TTtens :=
  ⟨[⟨1, 2, 2, fun _ i k => (i : ℚ) + (k : ℚ)⟩,
    ⟨2, 3, 1, fun a j _ => (a : ℚ) * (j : ℚ) + 1⟩], [2, 3], [1, 2, 1]⟩

/-- The computed witness results of the five operators. -/
def wAddR : TTObj :=
  match ttAdd (.tens wTens) (.scalar 1) with
  | .ok r => r
  | .error _ => .tens ⟨[], [], []⟩

def wMulR : TTObj :=
  match ttMul (.tens wTens) (.ttobj (.tens wTens)) with
  | .ok r => r
  | .error _ => .tens ⟨[], [], []⟩

def wMatmulR : TTObj :=
  match ttMatmul (.mat wMat) (.tens wTens) with
  | .ok r => r
  | .error _ => .tens ⟨[], [], []⟩

def wKronR : TTObj :=
  match kron (.tens wTens) (.tens wTens) with
  | .ok r => r
  | .error _ => .tens ⟨[], [], []⟩

def wSliceR : TTObj :=
  match ttSlice (.tens wX2) [.fix 0, .rng 0 3] with
  | .ok (.ttR t) => t
  | _ => .tens ⟨[], [], []⟩

theorem claim_C2_witness :
    (ttAdd (.tens wTens) (.scalar 1) = .ok wAddR ∧ structOK wAddR) ∧
    (ttMul (.tens wTens) (.ttobj (.tens wTens)) = .ok wMulR ∧
      structOK wMulR) ∧
    (ttMatmul (.mat wMat) (.tens wTens) = .ok wMatmulR ∧
      structOK wMatmulR) ∧
    (kron (.tens wTens) (.tens wTens) = .ok wKronR ∧ structOK wKronR) ∧
    (ttSlice (.tens wX2) [.fix 0, .rng 0 3] = .ok (.ttR wSliceR) ∧
      structOK wSliceR) :=
  ⟨⟨rfl, claim_C2.1 (.tens wTens) (.scalar 1) wAddR rfl⟩,
    ⟨rfl, claim_C2.2.1 (.tens wTens) (.ttobj (.tens wTens)) wMulR rfl⟩,
    ⟨rfl, claim_C2.2.2.1 (.mat wMat) (.tens wTens) wMatmulR rfl⟩,
    ⟨rfl, claim_C2.2.2.2.1 (.tens wTens) (.tens wTens) wKronR rfl⟩,
    ⟨rfl, claim_C2.2.2.2.2 (.tens wX2) [.fix 0, .rng 0 3] wSliceR rfl⟩⟩

end TorchTT
